import Mathlib

set_option autoImplicit false

/-!
Verification development for the quest execution engine of `game_core`
(`app/quest/quest.py`).  The Python source is embedded shallowly:

* `semver_safe` is a direct translation of the function of the same name.
* `TopoSorter` embeds the operational behaviour of CPython's
  `graphlib.TopologicalSorter` (the standard-library structure the engine
  drives): the `npredecessors` counters with the `_NODE_OUT = -1` /
  `_NODE_DONE = -2` sentinels, the per-node successor lists, the
  `prepare` / `get_ready` / `done` / `is_active` protocol.
* `Quest.load`, `Quest.load_storage_model`, `Quest.load_stages`,
  `Quest.__init__` and `Quest.execute_stages` are translated
  statement-by-statement; Python exceptions become a `PyErr` result, and
  field assignments on `self` become explicit updates of a `QuestVars`
  record so that partial assignment is observable.
* The `Stage` interface, `StorageModel` and the tick kind live in files
  that are not part of the provided sources; they are modelled from the
  specification (see the doc comments on the corresponding definitions).
* `execute_stages` additionally returns a trace of the stage lifecycle
  calls it makes, so that temporal properties of a pass are statable.
-/

namespace GameCore

/-- The exception kinds raised by the quest engine: `QuestLoadError` and
`QuestDefinitionError` from `exceptions.py`, Python's builtin `ValueError`,
and `graphlib.CycleError`. -/
inductive PyErr where
  | questLoadError (msg : String)
  | questDefinitionError (msg : String)
  | valueError (msg : String)
  | cycleError (msg : String)
deriving DecidableEq

/-- A parsed semantic version, as `semver.VersionInfo` exposes it to
`quest.py`: major, minor and patch components. -/
structure VersionInfo where
  major : Nat
  minor : Nat
  patch : Nat
deriving DecidableEq

/-- Numeric value of a decimal digit character. -/
def charDigit (c : Char) : Option Nat :=
  if c.toNat ≥ 48 ∧ c.toNat ≤ 57 then some (c.toNat - 48) else none

/-- Parse a nonempty run of decimal digits; `none` on an empty run or a
non-digit. -/
def natFromDigits : List Char → Option Nat → Option Nat
  | [], acc => acc
  | c :: cs, acc =>
    match charDigit c with
    | some d => natFromDigits cs (some (acc.getD 0 * 10 + d))
    | none => none

/-- Split a character list on dots. -/
def splitOnDot : List Char → List (List Char)
  | [] => [[]]
  | c :: rest =>
    if c = '.' then [] :: splitOnDot rest
    else
      match splitOnDot rest with
      | [] => [[c]]
      | p :: ps => (c :: p) :: ps

/-- `VersionInfo.parse`: a version string is three dot-separated numeric
components; anything else raises `ValueError` (modelled as `none`). -/
def parseVersion (s : String) : Option VersionInfo :=
  match (splitOnDot s.data).map (fun cs => natFromDigits cs none) with
  | [some a, some b, some c] => some ⟨a, b, c⟩
  | _ => none

def versionToString (v : VersionInfo) : String :=
  toString v.major ++ "." ++ toString v.minor ++ "." ++ toString v.patch

/-- Direct translation of `semver_safe` (quest.py lines 27-36). -/
def semver_safe (start dest : VersionInfo) : Bool :=
  if start.major ≠ dest.major then false
  else if start.minor > dest.minor then false
  else true

/-! ## The topological sorter (`graphlib.TopologicalSorter`) -/

/-- CPython sentinel for a node handed out by `get_ready` and not yet done. -/
def NODE_OUT : Int := -1

/-- CPython sentinel for a node marked done. -/
def NODE_DONE : Int := -2

/-- Per-node record; mirrors CPython's `_NodeInfo` (`npredecessors` counter
and the list of successor nodes). -/
structure NodeInfo where
  npredecessors : Int
  successors : List String
deriving DecidableEq

/-- The `_node2info` dict: an insertion-ordered association list with
unique keys, as Python dicts are. -/
abbrev NodeMap := List (String × NodeInfo)

def lookupInfo : NodeMap → String → Option NodeInfo
  | [], _ => none
  | (k, i) :: rest, n => if k = n then some i else lookupInfo rest n

def updateInfo : NodeMap → String → (NodeInfo → NodeInfo) → NodeMap
  | [], _, _ => []
  | (k, i) :: rest, n, f =>
    (if k = n then (k, f i) else (k, i)) :: updateInfo rest n f

/-- `_get_nodeinfo`: create a fresh zero-predecessor entry at the end of the
dict if the node is absent. -/
def ensureNode (m : NodeMap) (n : String) : NodeMap :=
  if (lookupInfo m n).isSome then m else m ++ [(n, ⟨0, []⟩)]

/-- The sorter state: node table, the `_ready_nodes` list and the two
progress counters. -/
structure TopoSorter where
  node2info : NodeMap
  readyNodes : List String
  npassedout : Nat
  nfinished : Nat
deriving DecidableEq

/-- `TopologicalSorter.add(node, pred)`: `quest.py` always passes exactly one
predecessor (`self.graph.add(child_name, stage_name)`), so the embedding takes
one.  The node gains one predecessor count; the predecessor's successor list
gains the node. -/
def tsAdd (g : TopoSorter) (node : String) (pred : String) : TopoSorter :=
  let m := ensureNode g.node2info node
  let m := updateInfo m node (fun i => { i with npredecessors := i.npredecessors + 1 })
  let m := ensureNode m pred
  let m := updateInfo m pred (fun i => { i with successors := i.successors ++ [node] })
  { g with node2info := m }

/-- The edge list of the sorter's graph: `(u, v)` means `u` must precede `v`
(`v` appears in `u`'s successor list). -/
def tsEdges (m : NodeMap) : List (String × String) :=
  m.flatMap (fun p => p.2.successors.map (fun s => (p.1, s)))

/-- One Kahn-style pruning step: keep exactly the nodes that still have an
incoming edge from a surviving node. -/
def pruneStep (edges : List (String × String)) (rem : List String) : List String :=
  rem.filter (fun n => edges.any (fun e => e.2 == n && rem.contains e.1))

def pruneIter (edges : List (String × String)) : Nat → List String → List String
  | 0, rem => rem
  | k + 1, rem => pruneIter edges k (pruneStep edges rem)

/-- The set of nodes that survive exhaustive pruning; nonempty exactly when
the graph has a directed cycle. -/
def findCycleNodes (m : NodeMap) : List String :=
  pruneIter (tsEdges m) m.length (m.map Prod.fst)

/-- `TopologicalSorter.prepare`: embeds CPython's contract — `_find_cycle`
returns a cycle exactly when one exists, in which case `CycleError` is raised;
otherwise `_ready_nodes` becomes the in-order list of nodes whose
`npredecessors` is zero. -/
def tsPrepare (g : TopoSorter) : Except PyErr TopoSorter :=
  let cyc := findCycleNodes g.node2info
  if cyc.isEmpty then
    .ok { g with
          readyNodes := (g.node2info.filter (fun p => p.2.npredecessors == 0)).map Prod.fst }
  else
    .error (.cycleError (String.intercalate ", " cyc))

/-- `TopologicalSorter.get_ready`: return the ready list, mark each returned
node `_NODE_OUT`, bump `npassedout`, clear `_ready_nodes`. -/
def tsGetReady (g : TopoSorter) : List String × TopoSorter :=
  let result := g.readyNodes
  let m := result.foldl (fun m n => updateInfo m n (fun i => { i with npredecessors := NODE_OUT }))
      g.node2info
  (result,
   { node2info := m, readyNodes := [], npassedout := g.npassedout + result.length,
     nfinished := g.nfinished })

/-- Decrement one successor's predecessor count; if it reaches zero the
successor joins the ready list.  (Body of the loop inside `done`.) -/
def decSucc (st : NodeMap × List String) (s : String) : NodeMap × List String :=
  let m := updateInfo st.1 s (fun i => { i with npredecessors := i.npredecessors - 1 })
  match lookupInfo m s with
  | some i => if i.npredecessors == 0 then (m, st.2 ++ [s]) else (m, st.2)
  | none => (m, st.2)

/-- `TopologicalSorter.done(node)` for a single node, as `quest.py` calls it.
CPython raises `ValueError` when the node is unknown or was not passed out;
those branches are unreachable in this driver and leave the state unchanged
here. -/
def tsDone (g : TopoSorter) (node : String) : TopoSorter :=
  match lookupInfo g.node2info node with
  | none => g
  | some info =>
    if info.npredecessors = NODE_OUT then
      let m := updateInfo g.node2info node (fun i => { i with npredecessors := NODE_DONE })
      let res := info.successors.foldl decSucc (m, g.readyNodes)
      { node2info := res.1, readyNodes := res.2, npassedout := g.npassedout,
        nfinished := g.nfinished + 1 }
    else g

/-- `TopologicalSorter.is_active`. -/
def tsIsActive (g : TopoSorter) : Bool :=
  decide (g.nfinished < g.npassedout) || !g.readyNodes.isEmpty

/-! ## Stages, storage model and the quest class -/

/-- Modelled from the spec: the tick kind, "a caller-supplied classifier of
the triggering event, consulted by stage conditions" — it distinguishes a
scheduled/background tick from a user-triggered one (`app/tick.py` is not in
the provided sources). -/
inductive TickType where
  | scheduled
  | triggered
deriving DecidableEq

/-- Modelled from the spec: the `Stage` authoring interface (`stage.py` is not
in the provided sources).  A stage declares a `children` list of stage names
and implements `prepare() / condition() / execute() / is_done()`; `prepare`
and `execute` may mutate the owning quest's data payload and its `complete`
flag, `condition` (tick-kind aware) and `is_done` are read-only predicates. -/
structure StageDef (D : Type) where
  children : List String
  prepare : D → Bool → D × Bool
  condition : TickType → D → Bool → Bool
  execute : D → Bool → D × Bool
  is_done : D → Bool → Bool

/-- Modelled from the spec: `StorageModel` (`models.py` is not in the provided
sources) — the persisted snapshot shape: a semver string, the serialized
payload, the completed-stage list and the complete flag. -/
structure StorageModel where
  version : String
  completed_stages : List String
  serialized_data : String
  complete : Bool
deriving DecidableEq

/-- Modelled from the spec: a raw stored document either matches the storage
schema or fails pydantic validation (`StorageModel.parse_obj`). -/
inductive RawDoc where
  | valid (sm : StorageModel)
  | invalid (msg : String)
deriving DecidableEq

/-- `StorageModel.parse_obj`, at the interface `quest.py` uses. -/
def parse_obj : RawDoc → Except String StorageModel
  | .valid sm => .ok sm
  | .invalid m => .error m

/-- The static data of a concrete `Quest` subclass: class name (for the
`__repr__` used in error messages), declared code version, the named stage
set with its `StageDef`s, the default payload (`QuestDataModel()`), and the
payload deserializer (`QuestDataModel.parse_raw`, whose failure is a pydantic
`ValidationError`, modelled as `none`). -/
structure QuestClass (D : Type) where
  className : String
  version : VersionInfo
  stages : List (String × StageDef D)
  defaultData : D
  parseData : String → Option D

variable {D : Type}

/-- `Quest.__repr__`: `f"{self.__class__.__name__}(key={self.key})"`. -/
def questRepr (qc : QuestClass D) (key : String) : String :=
  qc.className ++ "(key=" ++ key ++ ")"

def stageNames (qc : QuestClass D) : List String := qc.stages.map Prod.fst

/-- Message of the dangling-reference `QuestDefinitionError`
(`f"{self} does not have stage named {child_name}"`, quotes elided). -/
def missingStageMsg (qc : QuestClass D) (key : String) (child : String) : String :=
  questRepr qc key ++ " does not have stage named " ++ child

/-- Message of the cycle `QuestDefinitionError`
(`f"{self} prepare failed! {err}"`). -/
def prepFailMsg (qc : QuestClass D) (key : String) (msg : String) : String :=
  questRepr qc key ++ " prepare failed! " ++ msg

/-- Message of the version-mismatch `QuestLoadError`. -/
def versionMismatchMsg (qc : QuestClass D) (key : String) (sv : VersionInfo) : String :=
  questRepr qc key ++ " Unsafe version mismatch in! " ++ versionToString sv
    ++ " -> " ++ versionToString qc.version

/-- Message of the storage-schema `QuestLoadError`. -/
def storageValidationMsg (qc : QuestClass D) (key : String) (m : String) : String :=
  questRepr qc key ++ " Storage model validation error! " ++ m

/-- Message of the payload `QuestLoadError`. -/
def dataValidationMsg (qc : QuestClass D) (key : String) : String :=
  questRepr qc key ++ " data validation error!"

/-- Inner loop of `Quest.load_stages` (lines 199-205): for each declared child
of stage `sn`, fail with a `QuestDefinitionError` if the child is not a
declared stage name, otherwise `graph.add(child_name, stage_name)`. -/
def addChildren (qc : QuestClass D) (key sn : String) :
    TopoSorter → List String → Except PyErr TopoSorter
  | g, [] => .ok g
  | g, c :: cs =>
    if c ∈ stageNames qc then addChildren qc key sn (tsAdd g c sn) cs
    else .error (.questDefinitionError (missingStageMsg qc key c))

/-- Outer loop of `Quest.load_stages`: iterate the stage dict in insertion
order. -/
def buildGraph (qc : QuestClass D) (key : String) :
    TopoSorter → List (String × StageDef D) → Except PyErr TopoSorter
  | g, [] => .ok g
  | g, (sn, sd) :: rest =>
    match addChildren qc key sn g sd.children with
    | .ok g2 => buildGraph qc key g2 rest
    | .error e => .error e

/-- `Quest.load_stages` (lines 194-210): build the graph then `prepare` it,
wrapping a `CycleError` into a `QuestDefinitionError`. -/
def load_stages (qc : QuestClass D) (key : String) : Except PyErr TopoSorter :=
  match buildGraph qc key ⟨[], [], 0, 0⟩ qc.stages with
  | .error e => .error e
  | .ok g =>
    match tsPrepare g with
    | .ok g2 => .ok g2
    | .error (.cycleError m) => .error (.questDefinitionError (prepFailMsg qc key m))
    | .error e => .error e

/-- The assignable instance fields of a `Quest`; `none` models "not assigned
by this call", so partial assignment is observable. -/
structure QuestVars (D : Type) where
  key : Option String
  quest_data : Option D
  completed_stages : Option (List String)
  complete : Option Bool
  graph : Option TopoSorter

/-- `Quest.load_storage_model` (lines 165-183), statement by statement:
parse the stored version string (an unparsable one raises `ValueError`,
uncaught by `quest.py`), run `semver_safe`, deserialize the payload, and only
then assign `quest_data`, `completed_stages`, `complete` in that order. -/
def load_storage_model (qc : QuestClass D) (key : String) (sm : StorageModel)
    (v : QuestVars D) : QuestVars D × Option PyErr :=
  match parseVersion sm.version with
  | none => (v, some (.valueError (sm.version ++ " is not valid SemVer string")))
  | some save_semver =>
    if !(semver_safe save_semver qc.version) then
      (v, some (.questLoadError (versionMismatchMsg qc key save_semver)))
    else
      match qc.parseData sm.serialized_data with
      | none => (v, some (.questLoadError (dataValidationMsg qc key)))
      | some d =>
        let v1 := { v with quest_data := some d }
        let v2 := { v1 with completed_stages := some sm.completed_stages }
        let v3 := { v2 with complete := some sm.complete }
        (v3, none)

/-- `Quest.load` (lines 139-157): read the document (given here as the read's
result), parse it into the storage model or initialize fresh fields, then
`load_stages`; the built graph is assigned to `self.graph`. -/
def load (qc : QuestClass D) (key : String) (doc : Option RawDoc)
    (v : QuestVars D) : QuestVars D × Option PyErr :=
  match doc with
  | some raw =>
    match parse_obj raw with
    | .error m => (v, some (.questLoadError (storageValidationMsg qc key m)))
    | .ok sm =>
      match load_storage_model qc key sm v with
      | (v2, some e) => (v2, some e)
      | (v2, none) =>
        match load_stages qc key with
        | .error e => (v2, some e)
        | .ok g => ({ v2 with graph := some g }, none)
  | none =>
    let v1 := { v with quest_data := some qc.defaultData }
    let v2 := { v1 with completed_stages := some ([] : List String) }
    let v3 := { v2 with complete := some false }
    match load_stages qc key with
    | .error e => (v3, some e)
    | .ok g => ({ v3 with graph := some g }, none)

/-- `Quest.__init__` (lines 127-132): an empty key raises `ValueError`
("Key can't be blank"); otherwise the key is stored and `load` runs. -/
def quest_init (qc : QuestClass D) (key : String) (doc : Option RawDoc)
    (v : QuestVars D) : QuestVars D × Option PyErr :=
  if key = "" then (v, some (.valueError "Key cant be blank"))
  else load qc key doc { v with key := some key }

/-! ## The execution pass -/

/-- One stage-lifecycle call recorded by the instrumented pass; `flag` is the
value of the quest's `complete` flag at the moment of the call. -/
inductive Ev where
  | prepareEv (flag : Bool) (node : String)
  | conditionEv (flag : Bool) (node : String) (r : Bool)
  | executeEv (flag : Bool) (node : String)
  | isDoneEv (flag : Bool) (node : String) (r : Bool)
deriving DecidableEq

/-- The mutable quest fields an execution pass touches. -/
structure QuestState (D : Type) where
  quest_data : D
  completed_stages : List String
  complete : Bool

/-- Quest state, graph and the recorded lifecycle trace. -/
structure ExecState (D : Type) where
  q : QuestState D
  g : TopoSorter
  trace : List Ev

def lookupStage : List (String × StageDef D) → String → Option (StageDef D)
  | [], _ => none
  | (k, sd) :: rest, n => if k = n then some sd else lookupStage rest n

/-- Body of `for node in ready_nodes` in `Quest.execute_stages`
(lines 227-258).  The returned flag is `true` when the Python body exits the
whole function (the `return` on the `complete` check, or the `KeyError` that
an unknown stage name would raise — unreachable for graphs built by
`load_stages`). -/
def processNode (stages : List (String × StageDef D)) (tick : TickType)
    (st : ExecState D) (node : String) : ExecState D × Bool :=
  if st.q.complete then
    (st, true)
  else if node ∈ st.q.completed_stages then
    ({ st with g := tsDone st.g node }, false)
  else
    match lookupStage stages node with
    | none => (st, true)
    | some sd =>
      let f0 := st.q.complete
      let r1 := sd.prepare st.q.quest_data st.q.complete
      let q1 : QuestState D :=
        { quest_data := r1.1, completed_stages := st.q.completed_stages, complete := r1.2 }
      let t1 := st.trace ++ [Ev.prepareEv f0 node]
      let cr := sd.condition tick q1.quest_data q1.complete
      let t2 := t1 ++ [Ev.conditionEv q1.complete node cr]
      if cr then
        let r2 := sd.execute q1.quest_data q1.complete
        let q2 : QuestState D :=
          { quest_data := r2.1, completed_stages := q1.completed_stages, complete := r2.2 }
        let t3 := t2 ++ [Ev.executeEv q1.complete node]
        let dr := sd.is_done q2.quest_data q2.complete
        let t4 := t3 ++ [Ev.isDoneEv q2.complete node dr]
        if dr then
          ({ q := { q2 with completed_stages := q2.completed_stages ++ [node] },
             g := tsDone st.g node, trace := t4 }, false)
        else
          ({ q := q2, g := st.g, trace := t4 }, false)
      else
        ({ q := q1, g := st.g, trace := t2 }, false)

/-- The `for node in ready_nodes` loop; stops early when the body returns. -/
def processBatch (stages : List (String × StageDef D)) (tick : TickType) :
    ExecState D → List String → ExecState D × Bool
  | st, [] => (st, false)
  | st, n :: rest =>
    match processNode stages tick st n with
    | (st2, true) => (st2, true)
    | (st2, false) => processBatch stages tick st2 rest

/-- The `while self.graph.is_active()` loop of `Quest.execute_stages`
(lines 218-258), fuel-indexed: running out of fuel merely truncates the run,
so every safety property proved for all fuels covers the Python loop. -/
def execLoop (stages : List (String × StageDef D)) (tick : TickType) :
    Nat → ExecState D → ExecState D
  | 0, st => st
  | fuel + 1, st =>
    if tsIsActive st.g then
      let r := tsGetReady st.g
      if r.1.isEmpty then { st with g := r.2 }
      else
        match processBatch stages tick { st with g := r.2 } r.1 with
        | (st2, true) => st2
        | (st2, false) => execLoop stages tick fuel st2
    else st

/-- `Quest.execute_stages` (lines 212-260), starting from loaded quest fields
and a prepared graph, with an empty trace. -/
def execute_stages (qc : QuestClass D) (tick : TickType) (fuel : Nat)
    (q : QuestState D) (g : TopoSorter) : ExecState D :=
  execLoop qc.stages tick fuel { q := q, g := g, trace := [] }

/-! ## Spec-side notions used to state claims -/

/-- `chainB edges a l b`: the nodes `a :: l` form a directed path from `a` to
`b` along `edges`. -/
def chainB (edges : List (String × String)) : String → List String → String → Bool
  | a, [], b => edges.contains (a, b)
  | a, x :: xs, b => edges.contains (a, x) && chainB edges x xs b

/-- The declared edge list of a stage mapping: one `(stage, child)` pair per
declared child, in declaration order. -/
def mappingEdges (stages : List (String × StageDef D)) : List (String × String) :=
  stages.flatMap (fun p => p.2.children.map (fun c => (p.1, c)))

/-- Following the spec's words: the stage mapping contains a cycle — some
nonempty chain of declared `(stage, child)` edges leads from a stage back to
itself. -/
def MappingHasCycle (stages : List (String × StageDef D)) : Prop :=
  ∃ a l, chainB (mappingEdges stages) a l a = true

/-- The graph's edge relation: `u` must precede `v`. -/
def GraphEdge (m : NodeMap) (u v : String) : Prop := (u, v) ∈ tsEdges m

/-- The declared edge relation of a quest: stage `u` lists `v` among its
`children`. -/
def DeclEdge (qc : QuestClass D) (u v : String) : Prop :=
  (u, v) ∈ mappingEdges qc.stages

/-- Every entry of the sorter that lists `x` as a successor is marked done. -/
def AllPredsDone (g : TopoSorter) (x : String) : Prop :=
  ∀ e ∈ g.node2info, x ∈ e.2.successors → e.2.npredecessors = NODE_DONE

/-- Node `u` is marked done (`_NODE_DONE`) in the sorter. -/
def isDoneNode (g : TopoSorter) (u : String) : Prop :=
  ∃ i, lookupInfo g.node2info u = some i ∧ i.npredecessors = NODE_DONE

/-- One legal mutation of a prepared sorter, as `execute_stages` performs
them: a `get_ready` call, or a `done` call on a node that was passed out. -/
inductive SorterStep : TopoSorter → TopoSorter → Prop
  | ready (g : TopoSorter) : SorterStep g (tsGetReady g).2
  | markDone (g : TopoSorter) (n : String) (i : NodeInfo)
      (h1 : lookupInfo g.node2info n = some i) (h2 : i.npredecessors = NODE_OUT) :
      SorterStep g (tsDone g n)

/-- Sorter states reachable from `g0` by legal mutations. -/
def SorterReach (g0 g : TopoSorter) : Prop := Relation.ReflTransGen SorterStep g0 g

/-! ## Concrete fixtures used by witnesses and counterexamples -/

/-- A stage with no declared children whose lifecycle always succeeds and
increments a `Nat` payload on `execute`. -/
def trivStage : StageDef Nat where
  children := []
  prepare := fun d c => (d, c)
  condition := fun _ _ _ => true
  execute := fun d c => (d + 1, c)
  is_done := fun _ _ => true

/-- Quest fixture: stage `A` declares child `B` (so in the code's graph `A`
precedes `B`), stage `B` declares nothing. -/
def qcAB : QuestClass Nat where
  className := "Q"
  version := ⟨1, 0, 0⟩
  stages := [("A", { trivStage with children := ["B"] }), ("B", trivStage)]
  defaultData := 0
  parseData := fun _ => none

/-- Quest fixture for the claimed children-as-dependencies reading of the
scenario "`A` has no dependencies, `B` depends on `A`": `B.children = [A]`,
`A.children = []`. -/
def qcBA : QuestClass Nat where
  className := "Q"
  version := ⟨1, 0, 0⟩
  stages := [("A", trivStage), ("B", { trivStage with children := ["A"] })]
  defaultData := 0
  parseData := fun _ => none

/-- Quest fixture with a two-stage dependency cycle. -/
def qcCyc : QuestClass Nat where
  className := "Q"
  version := ⟨1, 0, 0⟩
  stages := [("A", { trivStage with children := ["B"] }),
             ("B", { trivStage with children := ["A"] })]
  defaultData := 0
  parseData := fun _ => none

/-- Quest fixture whose only stage references an undeclared stage name. -/
def qcMiss : QuestClass Nat where
  className := "Q"
  version := ⟨1, 0, 0⟩
  stages := [("A", { trivStage with children := ["Z"] })]
  defaultData := 0
  parseData := fun _ => none

/-- Quest fixture: `S` unlocks `A` and `B`; `A`'s execute sets the quest's
`complete` flag; `B` would run after `A` in the same ready batch. -/
def qcStop : QuestClass Nat where
  className := "Q"
  version := ⟨1, 0, 0⟩
  stages := [("S", { trivStage with children := ["A", "B"] }),
             ("A", { trivStage with execute := fun d _ => (d, true) }),
             ("B", trivStage)]
  defaultData := 0
  parseData := fun _ => none

/-- Quest fixture whose only declared-in-graph stage reports a false
condition. -/
def qcCond : QuestClass Nat where
  className := "Q"
  version := ⟨1, 0, 0⟩
  stages := [("A", { trivStage with children := ["B"] }),
             ("B", { trivStage with condition := fun _ _ _ => false })]
  defaultData := 0
  parseData := fun _ => none

/-- A parse function accepting only the string "42", used by load fixtures. -/
def parse42 : String → Option Nat := fun s => if s = "42" then some 42 else none

/-- Quest fixture for load/version tests. -/
def qcLoad : QuestClass Nat where
  className := "Q"
  version := ⟨1, 3, 0⟩
  stages := [("A", { trivStage with children := ["B"] }), ("B", trivStage)]
  defaultData := 0
  parseData := parse42

/-- An unassigned quest-variable record, as before `__init__` runs. -/
def vNone : QuestVars Nat := ⟨none, none, none, none, none⟩

/-! ## Analysis definitions over sorter states -/

/-- The key list of a node table. -/
def keys (m : NodeMap) : List String := m.map Prod.fst

/-- Every successor named anywhere in the table has its own entry. -/
def SuccClosed (m : NodeMap) : Prop :=
  ∀ p ∈ m, ∀ s ∈ p.2.successors, s ∈ keys m

/-- Number of in-edges of `v` from entries not yet marked done (counting one
per occurrence of `v` in a live entry's successor list). -/
def pendingPreds (m : NodeMap) (v : String) : Nat :=
  (m.map (fun p => if p.2.npredecessors = NODE_DONE then 0 else p.2.successors.count v)).sum

/-- Invariant of a node table during graph building: unique keys, closed
successor lists, and every counter equals the (all-live) in-degree of its
node. -/
def BuildOk (m : NodeMap) : Prop :=
  (keys m).Nodup ∧ SuccClosed m ∧
  ∀ p ∈ m, 0 ≤ p.2.npredecessors ∧ p.2.npredecessors = (pendingPreds m p.1 : Int)

/-- Keywise value transformation of a node table (an analysis device: the
closed forms of the fold loops inside `get_ready` and `done` are stated with
it). -/
def mapVals (F : String → NodeInfo → NodeInfo) (m : NodeMap) : NodeMap :=
  m.map (fun p => (p.1, F p.1 p.2))

/-- Decrement every counter by a per-key amount (analysis device for the
closed form of the loop inside `done`). -/
def decShift (kf : String → Nat) : String → NodeInfo → NodeInfo :=
  fun k i => ⟨i.npredecessors - (kf k : Int), i.successors⟩

/-- Invariant of a prepared sorter throughout a run: unique keys, closed
successor lists; a waiting node's counter equals its live in-degree; a node
passed out or done has all its predecessors done; ready nodes are waiting
with counter zero. -/
def WaitInv (g : TopoSorter) : Prop :=
  (keys g.node2info).Nodup ∧ SuccClosed g.node2info ∧
  (∀ p ∈ g.node2info,
    (0 ≤ p.2.npredecessors ∨ p.2.npredecessors = NODE_OUT ∨
      p.2.npredecessors = NODE_DONE) ∧
    (0 ≤ p.2.npredecessors → p.2.npredecessors = (pendingPreds g.node2info p.1 : Int)) ∧
    ((p.2.npredecessors = NODE_OUT ∨ p.2.npredecessors = NODE_DONE) →
      ∀ e ∈ g.node2info, p.1 ∈ e.2.successors → e.2.npredecessors = NODE_DONE)) ∧
  (∀ n ∈ g.readyNodes, ∃ i, lookupInfo g.node2info n = some i ∧ i.npredecessors = 0)

end GameCore

/-! # Theorems -/

namespace GameCore

variable {E : Type}

/-- **C2.** For every pair of semantic versions `start` (a snapshot's
version) and `dest` (the current code's version), `semver_safe start dest`
returns true if and only if `start.major = dest.major` and
`start.minor ≤ dest.minor`; the patch components never influence the
result. -/
theorem c2_semver_safe_iff :
    ∀ s d : VersionInfo,
      (semver_safe s d = true ↔ s.major = d.major ∧ s.minor ≤ d.minor) ∧
      (∀ p1 p2 : Nat,
        semver_safe { s with patch := p1 } { d with patch := p2 } = semver_safe s d) := by
  intro s d
  refine ⟨?_, fun p1 p2 => rfl⟩
  constructor
  · intro hs
    by_cases h : s.major = d.major
    · refine ⟨h, ?_⟩
      by_cases h2 : s.minor > d.minor
      · simp [semver_safe, h, h2] at hs
      · omega
    · simp [semver_safe, h] at hs
  · rintro ⟨h1, h2⟩
    have h3 : ¬ s.minor > d.minor := by omega
    simp [semver_safe, h1, h3]

/-- **C10.** Constructing a `Quest` with key `key` raises `ValueError` if and
only if the key is empty; for a non-empty key the constructor stores the key
unchanged and proceeds to `load`. -/
theorem c10_init_empty_key (qc : QuestClass E) (key : String) (doc : Option RawDoc)
    (v : QuestVars E) :
    (key = "" → quest_init qc key doc v = (v, some (.valueError "Key cant be blank"))) ∧
    (key ≠ "" → quest_init qc key doc v = load qc key doc { v with key := some key }) := by
  unfold quest_init
  constructor <;> intro h <;> simp [h]

/-- Witness for C10 at the concrete keys `""` and `"k"`. -/
theorem c10_init_empty_key_witness :
    quest_init qcLoad "" none vNone = (vNone, some (.valueError "Key cant be blank")) ∧
    quest_init qcLoad "k" none vNone = load qcLoad "k" none { vNone with key := some "k" } :=
  ⟨(c10_init_empty_key qcLoad "" none vNone).1 rfl,
   (c10_init_empty_key qcLoad "k" none vNone).2 (by decide)⟩

/-- **C3.** For every stored snapshot, if loading fails at schema parsing of
the stored document, at the version-safety check, or at deserialization of
the payload, then a `QuestLoadError` is raised and none of `quest_data`,
`completed_stages`, `complete` (nor any other quest field) has been assigned
by that load call: the variable record is returned exactly as it was. -/
theorem c3_load_never_partial (qc : QuestClass E) (key : String) (raw : RawDoc)
    (v : QuestVars E)
    (h : (∃ m, parse_obj raw = .error m) ∨
         (∃ sm sv, parse_obj raw = .ok sm ∧ parseVersion sm.version = some sv ∧
            semver_safe sv qc.version = false) ∨
         (∃ sm sv, parse_obj raw = .ok sm ∧ parseVersion sm.version = some sv ∧
            semver_safe sv qc.version = true ∧ qc.parseData sm.serialized_data = none)) :
    ∃ m, load qc key (some raw) v = (v, some (.questLoadError m)) := by
  rcases h with ⟨m, hm⟩ | ⟨sm, sv, hsm, hv, hs⟩ | ⟨sm, sv, hsm, hv, hs, hd⟩
  · exact ⟨storageValidationMsg qc key m, by simp [load, hm]⟩
  · exact ⟨versionMismatchMsg qc key sv, by simp [load, hsm, load_storage_model, hv, hs]⟩
  · exact ⟨dataValidationMsg qc key, by simp [load, hsm, load_storage_model, hv, hs, hd]⟩

/-- Witness for C3: a snapshot of version 2.0.0 against code version 1.3.0
fails the version-safety check; the load call returns the variables
untouched with a `QuestLoadError`. -/
theorem c3_load_never_partial_witness :
    ∃ m, load qcLoad "k" (some (.valid ⟨"2.0.0", [], "42", false⟩)) vNone
      = (vNone, some (.questLoadError m)) :=
  c3_load_never_partial qcLoad "k" (.valid ⟨"2.0.0", [], "42", false⟩) vNone
    (Or.inr (Or.inl ⟨⟨"2.0.0", [], "42", false⟩, ⟨2, 0, 0⟩, rfl, by decide, by decide⟩))

/-- **C4.** For every quest whose `complete` flag is already true when
`execute_stages` is called, the pass is a no-op: no stage lifecycle call
occurs (the trace is empty) and `completed_stages`, `complete`, `quest_data`
are identical before and after the call. -/
theorem c4_complete_pass_noop (qc : QuestClass E) (tick : TickType) (fuel : Nat)
    (q : QuestState E) (g : TopoSorter) (h : q.complete = true) :
    (execute_stages qc tick fuel q g).q.quest_data = q.quest_data ∧
    (execute_stages qc tick fuel q g).q.completed_stages = q.completed_stages ∧
    (execute_stages qc tick fuel q g).q.complete = true ∧
    (execute_stages qc tick fuel q g).trace = [] := by
  unfold execute_stages
  cases fuel with
  | zero => exact ⟨rfl, rfl, h, rfl⟩
  | succ n =>
    rw [execLoop]
    by_cases ha : tsIsActive g = true
    · rw [if_pos ha]
      rcases hr : (tsGetReady g).1 with _ | ⟨x, xs⟩
      · simp [hr, h]
      · have hb : processBatch qc.stages tick { q := q, g := (tsGetReady g).2, trace := ([] : List Ev) }
            (x :: xs) = ({ q := q, g := (tsGetReady g).2, trace := [] }, true) := by
          simp [processBatch, processNode, h]
        simp [hr, hb, h]
    · rw [if_neg ha]
      exact ⟨rfl, rfl, h, rfl⟩

/-- Master lemma on one node turn: `completed_stages` is unchanged or gains
exactly the processed node (which was not yet in it), and the trace grows by
events none of which is a stage start (`prepareEv`) under a raised `complete`
flag. -/
theorem processNode_spec (stages : List (String × StageDef E)) (tick : TickType)
    (st : ExecState E) (node : String) :
    ((processNode stages tick st node).1.q.completed_stages = st.q.completed_stages ∨
      (node ∉ st.q.completed_stages ∧
       (processNode stages tick st node).1.q.completed_stages
         = st.q.completed_stages ++ [node])) ∧
    (∀ n : String, Ev.prepareEv true n ∈ (processNode stages tick st node).1.trace →
       Ev.prepareEv true n ∈ st.trace) := by
  unfold processNode
  by_cases hc : st.q.complete = true
  · rw [if_pos hc]
    exact ⟨Or.inl rfl, fun n hn => hn⟩
  · rw [if_neg hc]
    have hc' : st.q.complete = false := by
      cases h : st.q.complete
      · rfl
      · exact absurd h hc
    by_cases hm : node ∈ st.q.completed_stages
    · rw [if_pos hm]
      exact ⟨Or.inl rfl, fun n hn => hn⟩
    · rw [if_neg hm]
      cases hs : lookupStage stages node with
      | none => exact ⟨Or.inl rfl, fun n hn => hn⟩
      | some sd =>
        simp only [hc']
        by_cases hcr : sd.condition tick (sd.prepare st.q.quest_data false).1
            (sd.prepare st.q.quest_data false).2 = true
        · rw [if_pos hcr]
          by_cases hdr : sd.is_done
              (sd.execute (sd.prepare st.q.quest_data false).1
                (sd.prepare st.q.quest_data false).2).1
              (sd.execute (sd.prepare st.q.quest_data false).1
                (sd.prepare st.q.quest_data false).2).2 = true
          · rw [if_pos hdr]
            refine ⟨Or.inr ⟨hm, rfl⟩, ?_⟩
            intro n hn
            simp only [List.append_assoc, List.mem_append, List.mem_cons] at hn ⊢
            rcases hn with h | h
            · exact h
            · simp at h
          · rw [if_neg hdr]
            refine ⟨Or.inl rfl, ?_⟩
            intro n hn
            simp only [List.append_assoc, List.mem_append, List.mem_cons] at hn ⊢
            rcases hn with h | h
            · exact h
            · simp at h
        · rw [if_neg hcr]
          refine ⟨Or.inl rfl, ?_⟩
          intro n hn
          simp only [List.append_assoc, List.mem_append, List.mem_cons] at hn ⊢
          rcases hn with h | h
          · exact h
          · simp at h

/-- `processBatch` version of `processNode_spec`. -/
theorem processBatch_spec (stages : List (String × StageDef E)) (tick : TickType) :
    ∀ (ns : List String) (st : ExecState E),
      (st.q.completed_stages.Nodup →
        ((processBatch stages tick st ns).1.q.completed_stages.Nodup ∧
         ∃ u, (processBatch stages tick st ns).1.q.completed_stages
           = st.q.completed_stages ++ u)) ∧
      (∀ n : String, Ev.prepareEv true n ∈ (processBatch stages tick st ns).1.trace →
         Ev.prepareEv true n ∈ st.trace) := by
  intro ns
  induction ns with
  | nil =>
    intro st
    exact ⟨fun h => ⟨h, [], by simp [processBatch]⟩, fun n hn => hn⟩
  | cons x xs ih =>
    intro st
    rw [processBatch]
    rcases hpn : processNode stages tick st x with ⟨st2, early⟩
    have hspec := processNode_spec stages tick st x
    rw [hpn] at hspec
    rcases hspec with ⟨hcs, htr⟩
    cases early with
    | true =>
      refine ⟨fun h => ⟨?_, ?_⟩, htr⟩
      · rcases hcs with h1 | ⟨h1, h2⟩
        · rw [h1]; exact h
        · rw [h2]; exact List.Nodup.append h (List.nodup_singleton x)
            (by simpa using h1)
      · rcases hcs with h1 | ⟨h1, h2⟩
        · exact ⟨[], by rw [h1]; simp⟩
        · exact ⟨[x], h2⟩
    | false =>
      rcases ih st2 with ⟨ihc, ihtr⟩
      constructor
      · intro h
        have hnd2 : st2.q.completed_stages.Nodup := by
          rcases hcs with h1 | ⟨h1, h2⟩
          · rw [h1]; exact h
          · rw [h2]
            exact List.Nodup.append h (List.nodup_singleton x) (by simpa using h1)
        rcases ihc hnd2 with ⟨hnd3, u, hu⟩
        refine ⟨hnd3, ?_⟩
        rcases hcs with h1 | ⟨h1, h2⟩
        · exact ⟨u, by rw [hu, h1]⟩
        · exact ⟨[x] ++ u, by rw [hu, h2]; simp⟩
      · exact fun n hn => htr n (ihtr n hn)

/-- `execLoop` version of `processNode_spec`. -/
theorem execLoop_spec (stages : List (String × StageDef E)) (tick : TickType) :
    ∀ (fuel : Nat) (st : ExecState E),
      (st.q.completed_stages.Nodup →
        ((execLoop stages tick fuel st).q.completed_stages.Nodup ∧
         ∃ u, (execLoop stages tick fuel st).q.completed_stages
           = st.q.completed_stages ++ u)) ∧
      (∀ n : String, Ev.prepareEv true n ∈ (execLoop stages tick fuel st).trace →
         Ev.prepareEv true n ∈ st.trace) := by
  intro fuel
  induction fuel with
  | zero =>
    intro st
    exact ⟨fun h => ⟨h, [], by simp [execLoop]⟩, fun n hn => hn⟩
  | succ k ih =>
    intro st
    rw [execLoop]
    by_cases ha : tsIsActive st.g = true
    · rw [if_pos ha]
      by_cases he : (tsGetReady st.g).1.isEmpty = true
      · rw [if_pos he]
        exact ⟨fun h => ⟨h, [], by simp⟩, fun n hn => hn⟩
      · rw [if_neg he]
        rcases hpb : processBatch stages tick { st with g := (tsGetReady st.g).2 }
            (tsGetReady st.g).1 with ⟨st2, early⟩
        have hspec := processBatch_spec stages tick (tsGetReady st.g).1
            { st with g := (tsGetReady st.g).2 }
        rw [hpb] at hspec
        rcases hspec with ⟨hcs, htr⟩
        cases early with
        | true => exact ⟨hcs, htr⟩
        | false =>
          rcases ih st2 with ⟨ihc, ihtr⟩
          constructor
          · intro h
            rcases hcs h with ⟨hnd2, u1, hu1⟩
            rcases ihc hnd2 with ⟨hnd3, u2, hu2⟩
            exact ⟨hnd3, u1 ++ u2, by rw [hu2, hu1, List.append_assoc]⟩
          · exact fun n hn => htr n (ihtr n hn)
    · rw [if_neg ha]
      exact ⟨fun h => ⟨h, [], by simp⟩, fun n hn => hn⟩

/-- **C5.** During a single execution pass, once the `complete` flag is true,
no further stage is started: every `prepare` lifecycle call recorded in the
pass's trace happened with the `complete` flag false (so any stage whose turn
comes after the flag was raised — in the same ready batch or a later one —
has none of its `prepare`, `condition`, `execute` invoked in that pass). -/
theorem c5_no_stage_starts_after_complete (qc : QuestClass E) (tick : TickType)
    (fuel : Nat) (q : QuestState E) (g : TopoSorter) (f : Bool) (n : String)
    (h : Ev.prepareEv f n ∈ (execute_stages qc tick fuel q g).trace) : f = false := by
  have htr := (execLoop_spec qc.stages tick fuel { q := q, g := g, trace := [] }).2
  unfold execute_stages at h
  cases f with
  | false => rfl
  | true => exact absurd (htr n h) (List.not_mem_nil _)

/-- Witness for C5: in the concrete quest where stage `A`'s `execute` raises
the `complete` flag while `B` is ready in the same batch, the recorded
`prepare` of `A` carries flag `false` (and the theorem applies to it). -/
theorem c5_no_stage_starts_after_complete_witness :
    Ev.prepareEv false "A" ∈
      (execute_stages qcStop .triggered 10 ⟨0, ["S"], false⟩
        ⟨[("A", ⟨0, []⟩), ("S", ⟨NODE_DONE, ["A", "B"]⟩), ("B", ⟨0, []⟩)], ["A", "B"], 1, 1⟩).trace ∧
    false = false :=
  ⟨by decide,
   c5_no_stage_starts_after_complete qcStop .triggered 10 ⟨0, ["S"], false⟩
     ⟨[("A", ⟨0, []⟩), ("S", ⟨NODE_DONE, ["A", "B"]⟩), ("B", ⟨0, []⟩)], ["A", "B"], 1, 1⟩
     false "A" (by decide)⟩

/-- **C6.** For every quest state whose `completed_stages` has no duplicates,
after any execution pass `completed_stages` still has no duplicates and the
original list is an initial segment of the new one: the pass only appends. -/
theorem c6_completed_stages_monotone (qc : QuestClass E) (tick : TickType)
    (fuel : Nat) (q : QuestState E) (g : TopoSorter)
    (h : q.completed_stages.Nodup) :
    (execute_stages qc tick fuel q g).q.completed_stages.Nodup ∧
    ∃ u, (execute_stages qc tick fuel q g).q.completed_stages
      = q.completed_stages ++ u :=
  (execLoop_spec qc.stages tick fuel { q := q, g := g, trace := [] }).1 h

/-- Witness for C6 on a concrete fresh pass of the two-stage quest. -/
theorem c6_completed_stages_monotone_witness :
    (execute_stages qcAB .triggered 10 ⟨0, [], false⟩
      ⟨[("B", ⟨1, []⟩), ("A", ⟨0, ["B"]⟩)], ["A"], 0, 0⟩).q.completed_stages.Nodup ∧
    ∃ u, (execute_stages qcAB .triggered 10 ⟨0, [], false⟩
      ⟨[("B", ⟨1, []⟩), ("A", ⟨0, ["B"]⟩)], ["A"], 0, 0⟩).q.completed_stages = [] ++ u :=
  c6_completed_stages_monotone qcAB .triggered 10 ⟨0, [], false⟩
    ⟨[("B", ⟨1, []⟩), ("A", ⟨0, ["B"]⟩)], ["A"], 0, 0⟩ List.nodup_nil

/-- **C9.** For every ready stage processed in a pass that is not already in
`completed_stages`: if its `condition` returns false, or its `condition`
returns true and after `execute` its `is_done` returns false, then the
stage's name is not appended to `completed_stages` and the stage is not
marked done in the graph (the graph is untouched by the turn), leaving it
eligible for re-evaluation from `condition` on a future pass. -/
theorem c9_pending_stage_not_marked (stages : List (String × StageDef E))
    (tick : TickType) (st : ExecState E) (node : String) (sd : StageDef E)
    (hc : st.q.complete = false)
    (hm : node ∉ st.q.completed_stages)
    (hs : lookupStage stages node = some sd)
    (hcond : sd.condition tick (sd.prepare st.q.quest_data false).1
        (sd.prepare st.q.quest_data false).2 = false ∨
      (sd.condition tick (sd.prepare st.q.quest_data false).1
          (sd.prepare st.q.quest_data false).2 = true ∧
        sd.is_done
          (sd.execute (sd.prepare st.q.quest_data false).1
            (sd.prepare st.q.quest_data false).2).1
          (sd.execute (sd.prepare st.q.quest_data false).1
            (sd.prepare st.q.quest_data false).2).2 = false)) :
    (processNode stages tick st node).1.q.completed_stages = st.q.completed_stages ∧
    (processNode stages tick st node).1.g = st.g ∧
    node ∉ (processNode stages tick st node).1.q.completed_stages := by
  unfold processNode
  rw [if_neg (by rw [hc]; exact Bool.false_ne_true), if_neg hm, hs]
  simp only [hc]
  rcases hcond with hcr | ⟨hcr, hdr⟩
  · rw [if_neg (by rw [hcr]; exact Bool.false_ne_true)]
    exact ⟨rfl, rfl, hm⟩
  · rw [if_pos hcr, if_neg (by rw [hdr]; exact Bool.false_ne_true)]
    exact ⟨rfl, rfl, hm⟩

/-- Witness for C9: the concrete stage `B` of `qcCond` has a false
condition; its turn leaves `completed_stages` and the graph untouched. -/
theorem c9_pending_stage_not_marked_witness :
    (processNode qcCond.stages .triggered
      ⟨⟨0, [], false⟩, ⟨[("B", ⟨NODE_OUT, []⟩), ("A", ⟨NODE_DONE, ["B"]⟩)], [], 2, 1⟩, []⟩
      "B").1.q.completed_stages = [] ∧
    (processNode qcCond.stages .triggered
      ⟨⟨0, [], false⟩, ⟨[("B", ⟨NODE_OUT, []⟩), ("A", ⟨NODE_DONE, ["B"]⟩)], [], 2, 1⟩, []⟩
      "B").1.g = ⟨[("B", ⟨NODE_OUT, []⟩), ("A", ⟨NODE_DONE, ["B"]⟩)], [], 2, 1⟩ ∧
    "B" ∉ (processNode qcCond.stages .triggered
      ⟨⟨0, [], false⟩, ⟨[("B", ⟨NODE_OUT, []⟩), ("A", ⟨NODE_DONE, ["B"]⟩)], [], 2, 1⟩, []⟩
      "B").1.q.completed_stages :=
  c9_pending_stage_not_marked qcCond.stages .triggered
    ⟨⟨0, [], false⟩, ⟨[("B", ⟨NODE_OUT, []⟩), ("A", ⟨NODE_DONE, ["B"]⟩)], [], 2, 1⟩, []⟩
    "B" { trivStage with condition := fun _ _ _ => false }
    rfl (by decide) (by rfl) (Or.inl rfl)

/-- `addChildren` fails with the dangling-reference `QuestDefinitionError`
whenever some listed child is not a declared stage name. -/
theorem addChildren_missing (qc : QuestClass E) (key sn : String) :
    ∀ (cs : List String) (g : TopoSorter), (∃ c ∈ cs, c ∉ stageNames qc) →
      ∃ c, c ∉ stageNames qc ∧
        addChildren qc key sn g cs
          = .error (.questDefinitionError (missingStageMsg qc key c)) := by
  intro cs
  induction cs with
  | nil => intro g h; rcases h with ⟨c, hc, _⟩; exact absurd hc (List.not_mem_nil c)
  | cons x xs ih =>
    intro g h
    rw [addChildren]
    by_cases hx : x ∈ stageNames qc
    · rw [if_pos hx]
      rcases h with ⟨c, hc, hcn⟩
      rcases List.mem_cons.mp hc with rfl | hmem
      · exact absurd hx hcn
      · exact ih (tsAdd g x sn) ⟨c, hmem, hcn⟩
    · rw [if_neg hx]
      exact ⟨x, hx, rfl⟩

/-- `buildGraph` fails with the dangling-reference `QuestDefinitionError`
whenever some stage of the mapping lists an undeclared child. -/
theorem buildGraph_missing (qc : QuestClass E) (key : String) :
    ∀ (ss : List (String × StageDef E)) (g : TopoSorter),
      (∃ p ∈ ss, ∃ c ∈ p.2.children, c ∉ stageNames qc) →
      ∃ c, c ∉ stageNames qc ∧
        buildGraph qc key g ss
          = .error (.questDefinitionError (missingStageMsg qc key c)) := by
  intro ss
  induction ss with
  | nil => intro g h; rcases h with ⟨p, hp, _⟩; exact absurd hp (List.not_mem_nil p)
  | cons hd rest ih =>
    intro g h
    rw [buildGraph]
    by_cases hall : ∀ c ∈ hd.2.children, c ∈ stageNames qc
    · have hok : ∀ (g' : TopoSorter) (cs : List String), (∀ c ∈ cs, c ∈ stageNames qc) →
          ∃ g2, addChildren qc key hd.1 g' cs = .ok g2 := by
        intro g' cs
        induction cs generalizing g' with
        | nil => exact fun _ => ⟨g', rfl⟩
        | cons y ys ihy =>
          intro hys
          rw [addChildren, if_pos (hys y (List.mem_cons_self y ys))]
          exact ihy (tsAdd g' y hd.1) (fun c hc => hys c (List.mem_cons_of_mem y hc))
      rcases hok g hd.2.children hall with ⟨g2, hg2⟩
      rcases h with ⟨p, hp, c, hcp, hcn⟩
      rcases List.mem_cons.mp hp with rfl | hmem
      · exact absurd (hall c hcp) hcn
      · rcases ih g2 ⟨p, hmem, c, hcp, hcn⟩ with ⟨c2, hc2, hb⟩
        refine ⟨c2, hc2, ?_⟩
        rcases hhd : hd with ⟨sn, sd⟩
        rw [hhd] at hg2
        rw [hg2]
        exact hb
    · push_neg at hall
      rcases hall with ⟨c, hcp, hcn⟩
      rcases addChildren_missing qc key hd.1 hd.2.children g ⟨c, hcp, hcn⟩
        with ⟨c2, hc2, ha⟩
      refine ⟨c2, hc2, ?_⟩
      rcases hhd : hd with ⟨sn, sd⟩
      rw [hhd] at ha
      rw [ha]

/-- **C8.** For every quest whose stage mapping contains a stage listing a
child (dependency-edge) name that is not a key of the same mapping, building
the stage graph fails with a `QuestDefinitionError` whose message names the
missing stage and the quest; the error arises from `load_stages` itself, so
no stage lifecycle runs. -/
theorem c8_missing_stage_ref (qc : QuestClass E) (key : String)
    (h : ∃ p ∈ qc.stages, ∃ c ∈ p.2.children, c ∉ stageNames qc) :
    ∃ c, c ∉ stageNames qc ∧
      load_stages qc key
        = .error (.questDefinitionError (missingStageMsg qc key c)) := by
  rcases buildGraph_missing qc key qc.stages ⟨[], [], 0, 0⟩ h with ⟨c, hc, hb⟩
  refine ⟨c, hc, ?_⟩
  rw [load_stages, hb]

/-- Witness for C8: `qcMiss`'s stage `A` references the undeclared name `Z`;
`load_stages` fails with the `QuestDefinitionError` naming `Z` and the
quest. -/
theorem c8_missing_stage_ref_witness :
    ∃ c, c ∉ stageNames (D := Nat) qcMiss ∧
      load_stages qcMiss "k"
        = .error (.questDefinitionError (missingStageMsg qcMiss "k" c)) :=
  c8_missing_stage_ref qcMiss "k"
    ⟨("A", { trivStage with children := ["Z"] }), by simp [qcMiss], "Z",
      by simp, by decide⟩

/-- Witness for C4 on a concrete already-complete quest. -/
theorem c4_complete_pass_noop_witness :
    (execute_stages qcAB .triggered 10 ⟨0, ["A"], true⟩
      ⟨[("B", ⟨1, []⟩), ("A", ⟨0, ["B"]⟩)], ["A"], 0, 0⟩).q.completed_stages = ["A"] ∧
    (execute_stages qcAB .triggered 10 ⟨0, ["A"], true⟩
      ⟨[("B", ⟨1, []⟩), ("A", ⟨0, ["B"]⟩)], ["A"], 0, 0⟩).trace = [] :=
  ⟨(c4_complete_pass_noop qcAB .triggered 10 ⟨0, ["A"], true⟩
      ⟨[("B", ⟨1, []⟩), ("A", ⟨0, ["B"]⟩)], ["A"], 0, 0⟩ rfl).2.1,
   (c4_complete_pass_noop qcAB .triggered 10 ⟨0, ["A"], true⟩
      ⟨[("B", ⟨1, []⟩), ("A", ⟨0, ["B"]⟩)], ["A"], 0, 0⟩ rfl).2.2.2⟩

/-! ## Association-table toolkit -/

theorem lookupInfo_updateInfo (n : String) (f : NodeInfo → NodeInfo) (v : String) :
    ∀ m : NodeMap, lookupInfo (updateInfo m n f) v
      = if v = n then (lookupInfo m v).map f else lookupInfo m v := by
  intro m
  induction m with
  | nil => by_cases h : v = n <;> simp [updateInfo, lookupInfo, h]
  | cons p rest ih =>
    rcases p with ⟨k, i⟩
    rw [updateInfo]
    by_cases hk : k = n
    · subst hk
      rw [if_pos rfl]
      by_cases hv : k = v
      · subst hv
        rw [lookupInfo, if_pos rfl, lookupInfo, if_pos rfl, if_pos rfl]
        rfl
      · rw [lookupInfo, if_neg hv, lookupInfo, if_neg hv, ih]
    · rw [if_neg hk]
      by_cases hv : k = v
      · subst hv
        rw [lookupInfo, if_pos rfl, lookupInfo, if_pos rfl,
          if_neg (fun h : k = n => hk h)]
      · rw [lookupInfo, if_neg hv, lookupInfo, if_neg hv, ih]

theorem keys_updateInfo (n : String) (f : NodeInfo → NodeInfo) :
    ∀ m : NodeMap, keys (updateInfo m n f) = keys m := by
  intro m
  induction m with
  | nil => rfl
  | cons p rest ih =>
    rcases p with ⟨k, i⟩
    rw [updateInfo]
    by_cases hk : k = n
    · rw [if_pos hk, keys, List.map_cons, keys, List.map_cons]
      rw [keys] at ih
      exact congrArg _ ih
    · rw [if_neg hk, keys, List.map_cons, keys, List.map_cons]
      rw [keys] at ih
      exact congrArg _ ih

theorem lookupInfo_append (m1 m2 : NodeMap) (v : String) :
    lookupInfo (m1 ++ m2) v
      = match lookupInfo m1 v with
        | some i => some i
        | none => lookupInfo m2 v := by
  induction m1 with
  | nil => simp [lookupInfo]
  | cons p rest ih =>
    rcases p with ⟨k, i⟩
    by_cases h : k = v
    · rw [List.cons_append, lookupInfo, if_pos h, lookupInfo, if_pos h]
    · rw [List.cons_append, lookupInfo, if_neg h, lookupInfo, if_neg h]
      exact ih

theorem lookupInfo_none_of_not_mem (v : String) :
    ∀ m : NodeMap, v ∉ keys m → lookupInfo m v = none := by
  intro m
  induction m with
  | nil => intro _; rfl
  | cons p rest ih =>
    intro h
    rw [keys, List.map_cons, List.mem_cons] at h
    push_neg at h
    rw [lookupInfo, if_neg (fun he : p.1 = v => h.1 he.symm)]
    exact ih (by rw [keys]; exact h.2)

theorem mem_keys_of_lookupInfo (m : NodeMap) (v : String) (i : NodeInfo)
    (h : lookupInfo m v = some i) : v ∈ keys m := by
  by_cases hm : v ∈ keys m
  · exact hm
  · rw [lookupInfo_none_of_not_mem v m hm] at h
    exact absurd h (Option.noConfusion)

theorem lookupInfo_ensureNode (m : NodeMap) (n v : String) :
    lookupInfo (ensureNode m n) v
      = if v = n then some ((lookupInfo m n).getD ⟨0, []⟩) else lookupInfo m v := by
  rw [ensureNode]
  by_cases hp : (lookupInfo m n).isSome = true
  · rw [if_pos hp]
    by_cases hv : v = n
    · subst hv
      rcases Option.isSome_iff_exists.mp hp with ⟨i, hi⟩
      rw [hi, if_pos rfl]
      rfl
    · rw [if_neg hv]
  · rw [if_neg hp]
    have hp2 : lookupInfo m n = none := by
      cases hl : lookupInfo m n with
      | none => rfl
      | some i => rw [hl] at hp; exact absurd hp (by simp)
    clear hp
    rename' hp2 => hp
    rw [lookupInfo_append]
    by_cases hv : v = n
    · subst hv
      rw [hp]
      simp [lookupInfo]
    · rw [if_neg hv]
      cases hl : lookupInfo m v with
      | some i => rfl
      | none =>
        rw [lookupInfo, if_neg (fun h : n = v => hv h.symm)]
        rfl

theorem ensureNode_present (m : NodeMap) (n : String)
    (h : (lookupInfo m n).isSome = true) : ensureNode m n = m := by
  rw [ensureNode, if_pos h]

theorem keys_ensureNode_absent (m : NodeMap) (n : String)
    (h : lookupInfo m n = none) : keys (ensureNode m n) = keys m ++ [n] := by
  rw [ensureNode, if_neg (by rw [h]; exact Bool.false_ne_true)]
  rw [keys, List.map_append]
  rfl

theorem lookupInfo_mem (m : NodeMap) (v : String) (i : NodeInfo)
    (h : lookupInfo m v = some i) : (v, i) ∈ m := by
  induction m with
  | nil => exact absurd h (by rw [lookupInfo]; exact Option.noConfusion)
  | cons p rest ih =>
    rcases p with ⟨k, j⟩
    rw [lookupInfo] at h
    by_cases hk : k = v
    · rw [if_pos hk] at h
      subst hk
      injection h with h
      subst h
      exact List.mem_cons_self _ _
    · rw [if_neg hk] at h
      exact List.mem_cons_of_mem _ (ih h)

theorem lookupInfo_of_mem (m : NodeMap) (hnd : (keys m).Nodup)
    (p : String × NodeInfo) (hp : p ∈ m) : lookupInfo m p.1 = some p.2 := by
  induction m with
  | nil => exact absurd hp (List.not_mem_nil p)
  | cons q rest ih =>
    rw [keys, List.map_cons, List.nodup_cons] at hnd
    rcases List.mem_cons.mp hp with rfl | hmem
    · rw [lookupInfo, if_pos rfl]
    · rw [lookupInfo]
      by_cases hk : q.1 = p.1
    
      · exact absurd (hk ▸ List.mem_map_of_mem Prod.fst hmem) hnd.1
      · rw [if_neg hk]
        exact ih hnd.2 hmem

/-! ## pendingPreds and edge lemmas -/

theorem pendingPreds_append (m1 m2 : NodeMap) (v : String) :
    pendingPreds (m1 ++ m2) v = pendingPreds m1 v + pendingPreds m2 v := by
  rw [pendingPreds, pendingPreds, pendingPreds, List.map_append, List.sum_append]

theorem updateInfo_absent (n : String) (f : NodeInfo → NodeInfo) :
    ∀ m : NodeMap, n ∉ keys m → updateInfo m n f = m := by
  intro m
  induction m with
  | nil => intro _; rfl
  | cons p rest ih =>
    intro h
    rcases p with ⟨k, i⟩
    rw [keys, List.map_cons, List.mem_cons] at h
    push_neg at h
    rw [updateInfo, if_neg (fun he : k = n => h.1 he.symm)]
    exact congrArg _ (ih (by rw [keys]; exact h.2))

theorem pendingPreds_update_entry (n v : String) (f : NodeInfo → NodeInfo) :
    ∀ (m : NodeMap), (keys m).Nodup → ∀ i : NodeInfo, lookupInfo m n = some i →
    pendingPreds (updateInfo m n f) v
      + (if i.npredecessors = NODE_DONE then 0 else i.successors.count v)
      = pendingPreds m v
      + (if (f i).npredecessors = NODE_DONE then 0 else (f i).successors.count v) := by
  intro m
  induction m with
  | nil => intro _ i h; exact absurd h (by rw [lookupInfo]; exact Option.noConfusion)
  | cons p rest ih =>
    intro hnd i h
    rcases p with ⟨k, j⟩
    rw [keys, List.map_cons, List.nodup_cons] at hnd
    rw [lookupInfo] at h
    rw [updateInfo]
    by_cases hk : k = n
    · rw [if_pos hk] at h ⊢
      injection h with h
      subst h
      subst hk
      rw [updateInfo_absent k f rest (fun hm => hnd.1 hm)]
      rw [pendingPreds, List.map_cons, List.sum_cons, pendingPreds, List.map_cons,
        List.sum_cons]
      dsimp only
      omega
    · rw [if_neg hk] at h ⊢
      rw [pendingPreds, List.map_cons, List.sum_cons, pendingPreds, List.map_cons,
        List.sum_cons]
      have hrec := ih hnd.2 i h
      rw [pendingPreds, pendingPreds] at hrec
      dsimp only
      omega

theorem pendingPreds_of_not_mem_keys (m : NodeMap) (hsc : SuccClosed m) (v : String)
    (hv : v ∉ keys m) : pendingPreds m v = 0 := by
  rw [pendingPreds]
  refine List.sum_eq_zero ?_
  intro x hx
  rw [List.mem_map] at hx
  rcases hx with ⟨p, hp, rfl⟩
  by_cases hd : p.2.npredecessors = NODE_DONE
  · rw [if_pos hd]
  · rw [if_neg hd]
    exact List.count_eq_zero.mpr (fun hm => hv (hsc p hp v hm))

theorem mem_tsEdges (m : NodeMap) (u v : String) :
    (u, v) ∈ tsEdges m ↔ ∃ p ∈ m, p.1 = u ∧ v ∈ p.2.successors := by
  rw [tsEdges, List.mem_flatMap]
  constructor
  · rintro ⟨p, hp, hm⟩
    rw [List.mem_map] at hm
    rcases hm with ⟨s, hs, heq⟩
    have h1 : p.1 = u := congrArg Prod.fst heq
    have h2 : s = v := congrArg Prod.snd heq
    exact ⟨p, hp, h1, h2 ▸ hs⟩
  · rintro ⟨p, hp, h1, h2⟩
    exact ⟨p, hp, List.mem_map.mpr ⟨v, h2, by rw [h1]⟩⟩

theorem tsEdges_updateInfo_succs (n : String) (f : NodeInfo → NodeInfo)
    (hf : ∀ i, (f i).successors = i.successors) :
    ∀ m : NodeMap, tsEdges (updateInfo m n f) = tsEdges m := by
  intro m
  induction m with
  | nil => rfl
  | cons p rest ih =>
    rcases p with ⟨k, i⟩
    rw [updateInfo]
    by_cases hk : k = n
    · rw [if_pos hk]
      rw [tsEdges, List.flatMap_cons, tsEdges, List.flatMap_cons]
      rw [tsEdges] at ih
      dsimp only
      rw [hf i, ih]
      rfl
    · rw [if_neg hk]
      rw [tsEdges, List.flatMap_cons, tsEdges, List.flatMap_cons]
      rw [tsEdges] at ih
      rw [ih]
      rfl

theorem tsEdges_append (m1 m2 : NodeMap) :
    tsEdges (m1 ++ m2) = tsEdges m1 ++ tsEdges m2 := by
  rw [tsEdges, tsEdges, tsEdges, List.flatMap_append]

theorem tsEdges_ensureNode (m : NodeMap) (n : String) :
    tsEdges (ensureNode m n) = tsEdges m := by
  rw [ensureNode]
  by_cases hp : (lookupInfo m n).isSome = true
  · rw [if_pos hp]
  · rw [if_neg hp, tsEdges_append]
    simp [tsEdges]

theorem mem_tsEdges_addSucc (n x : String) :
    ∀ (m : NodeMap), (keys m).Nodup → ∀ i : NodeInfo, lookupInfo m n = some i →
    ∀ uv : String × String,
      (uv ∈ tsEdges (updateInfo m n (fun j => { j with successors := j.successors ++ [x] }))
        ↔ (uv ∈ tsEdges m ∨ uv = (n, x))) := by
  intro m
  induction m with
  | nil => intro _ i h; exact absurd h (by rw [lookupInfo]; exact Option.noConfusion)
  | cons p rest ih =>
    intro hnd i h uv
    rcases p with ⟨k, j⟩
    rw [keys, List.map_cons, List.nodup_cons] at hnd
    rw [lookupInfo] at h
    rw [updateInfo]
    by_cases hk : k = n
    · rw [if_pos hk] at h ⊢
      injection h with h
      subst h
      subst hk
      rw [updateInfo_absent k _ rest (fun hm => hnd.1 hm)]
      rw [tsEdges, List.flatMap_cons, tsEdges, List.flatMap_cons]
      dsimp only
      rw [List.map_append, List.mem_append, List.mem_append, List.mem_append]
      constructor
      · rintro ((h1 | h1) | h1)
        · exact Or.inl (Or.inl h1)
        · rw [List.map_singleton, List.mem_singleton] at h1
          exact Or.inr h1
        · exact Or.inl (Or.inr h1)
      · rintro ((h1 | h1) | h1)
        · exact Or.inl (Or.inl h1)
        · exact Or.inr h1
        · rw [List.map_singleton, List.mem_singleton]
          exact Or.inl (Or.inr h1)
    · rw [if_neg hk] at h ⊢
      rw [tsEdges, List.flatMap_cons, tsEdges, List.flatMap_cons]
      rw [List.mem_append, List.mem_append]
      have hrec := ih hnd.2 i h uv
      rw [tsEdges] at hrec
      constructor
      · rintro (h1 | h1)
        · exact Or.inl (Or.inl h1)
        · rcases hrec.mp h1 with h2 | h2
          · exact Or.inl (Or.inr h2)
          · exact Or.inr h2
      · rintro ((h1 | h1) | h1)
        · exact Or.inl h1
        · exact Or.inr (hrec.mpr (Or.inl h1))
        · exact Or.inr (hrec.mpr (Or.inr h1))

theorem isSome_lookupInfo_iff (v : String) :
    ∀ m : NodeMap, (lookupInfo m v).isSome = true ↔ v ∈ keys m := by
  intro m
  induction m with
  | nil => simp [lookupInfo, keys]
  | cons p rest ih =>
    rcases p with ⟨k, i⟩
    rw [lookupInfo, keys, List.map_cons, List.mem_cons]
    by_cases hk : k = v
    · simp [hk]
    · rw [if_neg hk]
      rw [keys] at ih
      constructor
      · intro h
        exact Or.inr (ih.mp h)
      · intro h
        rcases h with h | h
        · exact absurd h.symm hk
        · exact ih.mpr h

theorem nodup_keys_ensureNode (m : NodeMap) (n : String)
    (hnd : (keys m).Nodup) : (keys (ensureNode m n)).Nodup := by
  by_cases hp : (lookupInfo m n).isSome = true
  · rw [ensureNode_present m n hp]
    exact hnd
  · have hn : lookupInfo m n = none := by
      cases hl : lookupInfo m n with
      | none => rfl
      | some i => rw [hl] at hp; simp at hp
    rw [keys_ensureNode_absent m n hn]
    rw [List.nodup_append]
    refine ⟨hnd, List.nodup_singleton n, ?_⟩
    intro a ha hb
    rw [List.mem_singleton] at hb
    subst hb
    have := (isSome_lookupInfo_iff a m).mpr ha
    rw [hn] at this
    exact absurd this (by simp)

theorem mem_keys_ensureNode_iff (m : NodeMap) (n v : String) :
    v ∈ keys (ensureNode m n) ↔ (v ∈ keys m ∨ v = n) := by
  by_cases hp : (lookupInfo m n).isSome = true
  · rw [ensureNode_present m n hp]
    constructor
    · exact Or.inl
    · intro h
      rcases h with h | h
      · exact h
      · subst h
        exact (isSome_lookupInfo_iff v m).mp hp
  · have hn : lookupInfo m n = none := by
      cases hl : lookupInfo m n with
      | none => rfl
      | some i => rw [hl] at hp; simp at hp
    rw [keys_ensureNode_absent m n hn, List.mem_append, List.mem_singleton]

theorem mem_updateInfo (n : String) (f : NodeInfo → NodeInfo) :
    ∀ (m : NodeMap) (p : String × NodeInfo), p ∈ updateInfo m n f →
      ∃ q ∈ m, p.1 = q.1 ∧ (p.2 = q.2 ∨ p.2 = f q.2) := by
  intro m
  induction m with
  | nil => intro p hp; exact absurd hp (List.not_mem_nil p)
  | cons q rest ih =>
    intro p hp
    rcases q with ⟨k, i⟩
    rw [updateInfo] at hp
    rcases List.mem_cons.mp hp with h | h
    · by_cases hk : k = n
      · rw [if_pos hk] at h
        subst h
        exact ⟨(k, i), List.mem_cons_self _ _, rfl, Or.inr rfl⟩
      · rw [if_neg hk] at h
        subst h
        exact ⟨(k, i), List.mem_cons_self _ _, rfl, Or.inl rfl⟩
    · rcases ih p h with ⟨q, hq, h1, h2⟩
      exact ⟨q, List.mem_cons_of_mem _ hq, h1, h2⟩

theorem mem_ensureNode (m : NodeMap) (n : String) (p : String × NodeInfo)
    (hp : p ∈ ensureNode m n) : p ∈ m ∨ p = (n, ⟨0, []⟩) := by
  rw [ensureNode] at hp
  by_cases hs : (lookupInfo m n).isSome = true
  · rw [if_pos hs] at hp
    exact Or.inl hp
  · rw [if_neg hs] at hp
    rcases List.mem_append.mp hp with h | h
    · exact Or.inl h
    · exact Or.inr (List.mem_singleton.mp h)

theorem tsAdd_keys_iff (g : TopoSorter) (node pred v : String) :
    v ∈ keys (tsAdd g node pred).node2info
      ↔ (v ∈ keys g.node2info ∨ v = node ∨ v = pred) := by
  simp only [tsAdd]
  rw [keys_updateInfo, mem_keys_ensureNode_iff, keys_updateInfo,
    mem_keys_ensureNode_iff]
  tauto

theorem tsAdd_keys_nodup (g : TopoSorter) (node pred : String)
    (hnd : (keys g.node2info).Nodup) : (keys (tsAdd g node pred).node2info).Nodup := by
  simp only [tsAdd]
  rw [keys_updateInfo]
  refine nodup_keys_ensureNode _ pred ?_
  rw [keys_updateInfo]
  exact nodup_keys_ensureNode _ node hnd

theorem tsAdd_succClosed (g : TopoSorter) (node pred : String)
    (hsc : SuccClosed g.node2info) : SuccClosed (tsAdd g node pred).node2info := by
  intro p hp s hs
  rw [tsAdd_keys_iff]
  simp only [tsAdd] at hp
  rcases mem_updateInfo pred _ _ p hp with ⟨q, hq, h1, h2⟩
  rcases mem_ensureNode _ pred q hq with hq2 | hq2
  · rcases mem_updateInfo node _ _ q hq2 with ⟨r, hr, h3, h4⟩
    rcases mem_ensureNode _ node r hr with hr2 | hr2
    · -- r is an original entry
      have hsr : ∀ x ∈ r.2.successors, x ∈ keys g.node2info := fun x hx => hsc r hr2 x hx
      rcases h2 with h2 | h2
      · rcases h4 with h4 | h4
        · rw [h2, h4] at hs
          exact Or.inl (hsr s hs)
        · rw [h2, h4] at hs
          exact Or.inl (hsr s hs)
      · rcases h4 with h4 | h4
        · rw [h2, h4] at hs
          rcases List.mem_append.mp hs with h5 | h5
          · exact Or.inl (hsr s h5)
          · exact Or.inr (Or.inl (List.mem_singleton.mp h5))
        · rw [h2, h4] at hs
          rcases List.mem_append.mp hs with h5 | h5
          · exact Or.inl (hsr s h5)
          · exact Or.inr (Or.inl (List.mem_singleton.mp h5))
    · -- r is the fresh node entry: empty successors
      have hr3 : r.2.successors = [] := by rw [hr2]
      rcases h2 with h2 | h2
      · rcases h4 with h4 | h4
        · rw [h2, h4, hr3] at hs
          exact absurd hs (List.not_mem_nil s)
        · rw [h2, h4] at hs
          have : (NodeInfo.mk (r.2.npredecessors + 1) r.2.successors).successors
              = r.2.successors := rfl
          rw [this, hr3] at hs
          exact absurd hs (List.not_mem_nil s)
      · rcases h4 with h4 | h4
        · rw [h2, h4, hr3] at hs
          rcases List.mem_append.mp hs with h5 | h5
          · exact absurd h5 (List.not_mem_nil s)
          · exact Or.inr (Or.inl (List.mem_singleton.mp h5))
        · rw [h2, h4] at hs
          have : (NodeInfo.mk (r.2.npredecessors + 1) r.2.successors).successors
              = r.2.successors := rfl
          rw [this, hr3] at hs
          rcases List.mem_append.mp hs with h5 | h5
          · exact absurd h5 (List.not_mem_nil s)
          · exact Or.inr (Or.inl (List.mem_singleton.mp h5))
  · -- q is the fresh pred entry
    have hq3 : q.2.successors = [] := by rw [hq2]
    rcases h2 with h2 | h2
    · rw [h2, hq3] at hs
      exact absurd hs (List.not_mem_nil s)
    · rw [h2, hq3] at hs
      rcases List.mem_append.mp hs with h5 | h5
      · exact absurd h5 (List.not_mem_nil s)
      · exact Or.inr (Or.inl (List.mem_singleton.mp h5))

theorem mem_tsEdges_tsAdd (g : TopoSorter) (node pred : String)
    (hnd : (keys g.node2info).Nodup) (uv : String × String) :
    uv ∈ tsEdges (tsAdd g node pred).node2info
      ↔ (uv ∈ tsEdges g.node2info ∨ uv = (pred, node)) := by
  simp only [tsAdd]
  have hnd3 : (keys (ensureNode (updateInfo (ensureNode g.node2info node) node
      (fun i => { i with npredecessors := i.npredecessors + 1 })) pred)).Nodup := by
    refine nodup_keys_ensureNode _ pred ?_
    rw [keys_updateInfo]
    exact nodup_keys_ensureNode _ node hnd
  have hl3 : lookupInfo (ensureNode (updateInfo (ensureNode g.node2info node) node
      (fun i => { i with npredecessors := i.npredecessors + 1 })) pred) pred
      = some ((lookupInfo (updateInfo (ensureNode g.node2info node) node
          (fun i => { i with npredecessors := i.npredecessors + 1 })) pred).getD ⟨0, []⟩) := by
    rw [lookupInfo_ensureNode, if_pos rfl]
  rw [mem_tsEdges_addSucc pred node _ hnd3 _ hl3 uv]
  rw [tsEdges_ensureNode, tsEdges_updateInfo_succs node
    (fun i => { i with npredecessors := i.npredecessors + 1 }) (fun i => rfl), tsEdges_ensureNode]

theorem pendingPreds_ensureNode (m : NodeMap) (n v : String) :
    pendingPreds (ensureNode m n) v = pendingPreds m v := by
  rw [ensureNode]
  by_cases hs : (lookupInfo m n).isSome = true
  · rw [if_pos hs]
  · rw [if_neg hs, pendingPreds_append]
    have h0 : pendingPreds [(n, ⟨0, []⟩)] v = 0 := by
      rw [pendingPreds, List.map_cons, List.map_nil, List.sum_cons, List.sum_nil]
      dsimp only
      rw [if_neg (by decide : ¬ ((0 : Int) = NODE_DONE)), List.count_nil]
      omega
    rw [h0]
    omega

theorem count_append_single (l : List String) (x v : String) :
    (l ++ [x]).count v = l.count v + (if x = v then 1 else 0) := by
  rw [List.count_append]
  by_cases h : x = v
  · subst h
    simp
  · simp [List.count_singleton, h, fun he : v = x => h he.symm]

theorem lookupInfo_tsAdd_other (g : TopoSorter) (node pred v : String)
    (hvn : v ≠ node) (hvp : v ≠ pred) :
    lookupInfo (tsAdd g node pred).node2info v = lookupInfo g.node2info v := by
  simp only [tsAdd]
  rw [lookupInfo_updateInfo, if_neg hvp, lookupInfo_ensureNode, if_neg hvp,
    lookupInfo_updateInfo, if_neg hvn, lookupInfo_ensureNode, if_neg hvn]

theorem lookupInfo_tsAdd_node (g : TopoSorter) (node pred : String) (hnp : node ≠ pred) :
    lookupInfo (tsAdd g node pred).node2info node
      = some ⟨((lookupInfo g.node2info node).getD ⟨0, []⟩).npredecessors + 1,
          ((lookupInfo g.node2info node).getD ⟨0, []⟩).successors⟩ := by
  simp only [tsAdd]
  rw [lookupInfo_updateInfo, if_neg hnp, lookupInfo_ensureNode, if_neg hnp,
    lookupInfo_updateInfo, if_pos rfl, lookupInfo_ensureNode, if_pos rfl]
  rfl

theorem lookupInfo_tsAdd_pred (g : TopoSorter) (node pred : String) (hnp : node ≠ pred) :
    lookupInfo (tsAdd g node pred).node2info pred
      = some ⟨((lookupInfo g.node2info pred).getD ⟨0, []⟩).npredecessors,
          ((lookupInfo g.node2info pred).getD ⟨0, []⟩).successors ++ [node]⟩ := by
  simp only [tsAdd]
  rw [lookupInfo_updateInfo, if_pos rfl, lookupInfo_ensureNode, if_pos rfl,
    lookupInfo_updateInfo, if_neg (fun h : pred = node => hnp h.symm),
    lookupInfo_ensureNode, if_neg (fun h : pred = node => hnp h.symm)]
  rfl

theorem lookupInfo_tsAdd_self (g : TopoSorter) (node : String) :
    lookupInfo (tsAdd g node node).node2info node
      = some ⟨((lookupInfo g.node2info node).getD ⟨0, []⟩).npredecessors + 1,
          ((lookupInfo g.node2info node).getD ⟨0, []⟩).successors ++ [node]⟩ := by
  simp only [tsAdd]
  rw [lookupInfo_updateInfo, if_pos rfl, lookupInfo_ensureNode, if_pos rfl,
    lookupInfo_updateInfo, if_pos rfl, lookupInfo_ensureNode, if_pos rfl]
  rfl

theorem lookup_getD_spec (m : NodeMap) (hsc : SuccClosed m)
    (hcnt : ∀ p ∈ m, 0 ≤ p.2.npredecessors ∧ p.2.npredecessors = (pendingPreds m p.1 : Int))
    (n : String) :
    0 ≤ ((lookupInfo m n).getD ⟨0, []⟩).npredecessors ∧
    ((lookupInfo m n).getD ⟨0, []⟩).npredecessors = (pendingPreds m n : Int) := by
  cases hl : lookupInfo m n with
  | none =>
    have hnotmem : n ∉ keys m := by
      intro hm
      have hx := (isSome_lookupInfo_iff n m).mpr hm
      rw [hl] at hx
      simp at hx
    refine ⟨le_refl 0, ?_⟩
    rw [pendingPreds_of_not_mem_keys m hsc n hnotmem]
    simp
  | some i =>
    have h := hcnt (n, i) (lookupInfo_mem m n i hl)
    simpa using h

theorem pendingPreds_tsAdd (g : TopoSorter) (node pred v : String)
    (hnd : (keys g.node2info).Nodup)
    (hnn : ∀ p ∈ g.node2info, 0 ≤ p.2.npredecessors) :
    pendingPreds (tsAdd g node pred).node2info v
      = pendingPreds g.node2info v + (if node = v then 1 else 0) := by
  simp only [tsAdd]
  -- abbreviations
  have hnd1 : (keys (ensureNode g.node2info node)).Nodup :=
    nodup_keys_ensureNode _ node hnd
  have hnn1 : ∀ p ∈ ensureNode g.node2info node, 0 ≤ p.2.npredecessors := by
    intro p hp
    rcases mem_ensureNode _ node p hp with h | h
    · exact hnn p h
    · rw [h]
  have hl1 : lookupInfo (ensureNode g.node2info node) node
      = some ((lookupInfo g.node2info node).getD ⟨0, []⟩) := by
    rw [lookupInfo_ensureNode, if_pos rfl]
  -- step m1 → m2 : increment does not change pendingPreds
  have h12 : pendingPreds (updateInfo (ensureNode g.node2info node) node
      (fun i => { i with npredecessors := i.npredecessors + 1 })) v
      = pendingPreds (ensureNode g.node2info node) v := by
    have hi1 : 0 ≤ ((lookupInfo g.node2info node).getD ⟨0, []⟩).npredecessors := by
      cases hl : lookupInfo g.node2info node with
      | none => exact le_refl 0
      | some i =>
        have := hnn (node, i) (lookupInfo_mem _ node i hl)
        simpa [hl] using this
    have hmain := pendingPreds_update_entry node v
      (fun i => { i with npredecessors := i.npredecessors + 1 })
      (ensureNode g.node2info node) hnd1 _ hl1
    rw [if_neg (by intro h; rw [NODE_DONE] at h; omega),
      if_neg (by intro h; dsimp only at h; rw [NODE_DONE] at h; omega)] at hmain
    dsimp only at hmain
    omega
  -- step m2 → m3 : ensure pred
  have h23 : pendingPreds (ensureNode (updateInfo (ensureNode g.node2info node) node
      (fun i => { i with npredecessors := i.npredecessors + 1 })) pred) v
      = pendingPreds (updateInfo (ensureNode g.node2info node) node
          (fun i => { i with npredecessors := i.npredecessors + 1 })) v :=
    pendingPreds_ensureNode _ pred v
  -- non-negativity in m3
  have hnn3 : ∀ p ∈ ensureNode (updateInfo (ensureNode g.node2info node) node
      (fun i => { i with npredecessors := i.npredecessors + 1 })) pred,
      0 ≤ p.2.npredecessors := by
    intro p hp
    rcases mem_ensureNode _ pred p hp with h | h
    · rcases mem_updateInfo node _ _ p h with ⟨q, hq, h1, h2⟩
      have hq0 := hnn1 q hq
      rcases h2 with h2 | h2
      · rw [h2]; exact hq0
      · rw [h2]; dsimp only; omega
    · rw [h]
  have hnd3 : (keys (ensureNode (updateInfo (ensureNode g.node2info node) node
      (fun i => { i with npredecessors := i.npredecessors + 1 })) pred)).Nodup := by
    refine nodup_keys_ensureNode _ pred ?_
    rw [keys_updateInfo]
    exact hnd1
  have hl3 : lookupInfo (ensureNode (updateInfo (ensureNode g.node2info node) node
      (fun i => { i with npredecessors := i.npredecessors + 1 })) pred) pred
      = some ((lookupInfo (updateInfo (ensureNode g.node2info node) node
          (fun i => { i with npredecessors := i.npredecessors + 1 })) pred).getD ⟨0, []⟩) := by
    rw [lookupInfo_ensureNode, if_pos rfl]
  -- step m3 → m4 : append edge
  have hi3 : 0 ≤ ((lookupInfo (ensureNode (updateInfo (ensureNode g.node2info node) node
      (fun i => { i with npredecessors := i.npredecessors + 1 })) pred) pred).getD
        ⟨0, []⟩).npredecessors := by
    cases hl : lookupInfo (ensureNode (updateInfo (ensureNode g.node2info node) node
        (fun i => { i with npredecessors := i.npredecessors + 1 })) pred) pred with
    | none => exact le_refl 0
    | some i =>
      have := hnn3 (pred, i) (lookupInfo_mem _ pred i hl)
      simpa [hl] using this
  have hmain := pendingPreds_update_entry pred v
    (fun j => { j with successors := j.successors ++ [node] }) _ hnd3 _ hl3
  rw [hl3] at hi3
  simp only [Option.getD_some] at hi3
  rw [if_neg (by intro h; rw [NODE_DONE] at h; omega),
    if_neg (by intro h; dsimp only at h; rw [NODE_DONE] at h; omega)] at hmain
  dsimp only at hmain
  rw [count_append_single] at hmain
  rw [pendingPreds_ensureNode, h12, pendingPreds_ensureNode] at hmain
  omega

theorem tsAdd_buildOk (g : TopoSorter) (node pred : String)
    (hB : BuildOk g.node2info) : BuildOk (tsAdd g node pred).node2info := by
  obtain ⟨hnd, hsc, hcnt⟩ := hB
  have hnn : ∀ p ∈ g.node2info, 0 ≤ p.2.npredecessors := fun p hp => (hcnt p hp).1
  refine ⟨tsAdd_keys_nodup g node pred hnd, tsAdd_succClosed g node pred hsc, ?_⟩
  intro p hp
  have hpp := pendingPreds_tsAdd g node pred p.1 hnd hnn
  have hlp := lookupInfo_of_mem _ (tsAdd_keys_nodup g node pred hnd) p hp
  have hgd := lookup_getD_spec g.node2info hsc hcnt
  by_cases hvn : p.1 = node
  · by_cases hvp : p.1 = pred
    · -- p.1 = node = pred
      have hnp : node = pred := hvn ▸ hvp
      subst hnp
      rw [hvn] at hlp
      rw [lookupInfo_tsAdd_self g node] at hlp
      injection hlp with hlp
      rw [hvn] at hpp
      rw [hvn, ← hlp]
      dsimp only
      rw [hpp, if_pos rfl]
      rcases hgd node with ⟨h1, h2⟩
      constructor
      · omega
      · rw [h2]
        push_cast
        ring
    · -- p.1 = node, node ≠ pred
      have hnp : node ≠ pred := fun h => hvp (hvn ▸ h)
      rw [hvn] at hlp
      rw [lookupInfo_tsAdd_node g node pred hnp] at hlp
      injection hlp with hlp
      rw [hvn] at hpp
      rw [hvn, ← hlp]
      dsimp only
      rw [hpp, if_pos rfl]
      rcases hgd node with ⟨h1, h2⟩
      constructor
      · omega
      · rw [h2]
        push_cast
        ring
  · by_cases hvp : p.1 = pred
    · -- p.1 = pred ≠ node
      have hnp : node ≠ pred := fun h => hvn (hvp ▸ h.symm)
      rw [hvp] at hlp
      rw [lookupInfo_tsAdd_pred g node pred hnp] at hlp
      injection hlp with hlp
      rw [hvp] at hpp
      rw [hvp, ← hlp]
      dsimp only
      rw [hpp, if_neg (fun h : node = pred => hnp h)]
      rcases hgd pred with ⟨h1, h2⟩
      constructor
      · omega
      · rw [h2]
        push_cast
        ring
  
    · -- untouched entry
      rw [lookupInfo_tsAdd_other g node pred p.1 hvn hvp] at hlp
      have hmem := lookupInfo_mem _ p.1 p.2 hlp
      have h := hcnt (p.1, p.2) hmem
      rw [hpp, if_neg (fun h2 : node = p.1 => hvn h2.symm)]
      dsimp only at h
      constructor
      · exact h.1
      · rw [h.2]
        push_cast
        ring

theorem buildGraph_ok_spec (qc : QuestClass E) (key : String) :
    ∀ (ss : List (String × StageDef E)) (g g2 : TopoSorter),
      BuildOk g.node2info → buildGraph qc key g ss = .ok g2 →
      (BuildOk g2.node2info ∧
       ∀ uv : String × String,
         (uv ∈ tsEdges g2.node2info
           ↔ (uv ∈ tsEdges g.node2info ∨ uv ∈ mappingEdges ss))) := by
  intro ss
  induction ss with
  | nil =>
    intro g g2 hB h
    rw [buildGraph] at h
    injection h with h
    subst h
    refine ⟨hB, fun uv => ?_⟩
    rw [mappingEdges]
    simp
  | cons hd rest ih =>
    intro g g2 hB h
    rcases hd with ⟨sn, sd⟩
    rw [buildGraph] at h
    -- inner loop on children
    have hadd : ∀ (cs : List String) (g' g'' : TopoSorter), BuildOk g'.node2info →
        addChildren qc key sn g' cs = .ok g'' →
        (BuildOk g''.node2info ∧
         ∀ uv : String × String,
           (uv ∈ tsEdges g''.node2info
             ↔ (uv ∈ tsEdges g'.node2info ∨ uv ∈ cs.map (fun c => (sn, c))))) := by
      intro cs
      induction cs with
      | nil =>
        intro g' g'' hB' h'
        rw [addChildren] at h'
        injection h' with h'
        subst h'
        refine ⟨hB', fun uv => ?_⟩
        simp
      | cons c cs ihc =>
        intro g' g'' hB' h'
        rw [addChildren] at h'
        by_cases hc : c ∈ stageNames qc
        · rw [if_pos hc] at h'
          rcases ihc (tsAdd g' c sn) g'' (tsAdd_buildOk g' c sn hB') h' with ⟨hB2, he⟩
          refine ⟨hB2, fun uv => ?_⟩
          rw [he uv, mem_tsEdges_tsAdd g' c sn hB'.1 uv]
          rw [List.map_cons, List.mem_cons]
          tauto
        · rw [if_neg hc] at h'
          exact absurd h' (by simp)
    cases hac : addChildren qc key sn g sd.children with
    | error e =>
      rw [hac] at h
      exact absurd h (by simp)
    | ok gmid =>
      rw [hac] at h
      rcases hadd sd.children g gmid hB hac with ⟨hBmid, hemid⟩
      rcases ih gmid g2 hBmid h with ⟨hB2, he2⟩
      refine ⟨hB2, fun uv => ?_⟩
      rw [he2 uv, hemid uv]
      simp only [mappingEdges, List.flatMap_cons, List.mem_append]
      tauto

theorem buildGraph_error_shape (qc : QuestClass E) (key : String) :
    ∀ (ss : List (String × StageDef E)) (g : TopoSorter) (e : PyErr),
      buildGraph qc key g ss = .error e → ∃ m, e = .questDefinitionError m := by
  intro ss
  induction ss with
  | nil =>
    intro g e h
    rw [buildGraph] at h
    exact absurd h (by simp)
  | cons hd rest ih =>
    intro g e h
    rcases hd with ⟨sn, sd⟩
    rw [buildGraph] at h
    have hadd : ∀ (cs : List String) (g' : TopoSorter) (e' : PyErr),
        addChildren qc key sn g' cs = .error e' → ∃ m, e' = .questDefinitionError m := by
      intro cs
      induction cs with
      | nil =>
        intro g' e' h'
        rw [addChildren] at h'
        exact absurd h' (by simp)
      | cons c cs ihc =>
        intro g' e' h'
        rw [addChildren] at h'
        by_cases hc : c ∈ stageNames qc
        · rw [if_pos hc] at h'
          exact ihc (tsAdd g' c sn) e' h'
        · rw [if_neg hc] at h'
          injection h' with h'
          exact ⟨missingStageMsg qc key c, h'.symm⟩
    cases hac : addChildren qc key sn g sd.children with
    | error e2 =>
      rw [hac] at h
      injection h with h
      subst h
      exact hadd sd.children g e2 hac
    | ok gmid =>
      rw [hac] at h
      exact ih gmid e h

/-! ## Cycles survive pruning -/

theorem chainB_in_pred (edges : List (String × String)) :
    ∀ (l : List String) (a b : String), chainB edges a l b = true →
      (∃ u ∈ a :: l, (u, b) ∈ edges) ∧ (∀ n ∈ l, ∃ u ∈ a :: l, (u, n) ∈ edges) := by
  intro l
  induction l with
  | nil =>
    intro a b h
    rw [chainB] at h
    refine ⟨⟨a, List.mem_singleton_self a, ?_⟩, fun n hn => absurd hn (List.not_mem_nil n)⟩
    simpa using h
  | cons x xs ih =>
    intro a b h
    rw [chainB, Bool.and_eq_true] at h
    rcases h with ⟨h1, h2⟩
    rcases ih x b h2 with ⟨⟨u, hu, hub⟩, hall⟩
    refine ⟨⟨u, List.mem_cons_of_mem a hu, hub⟩, ?_⟩
    intro n hn
    rcases List.mem_cons.mp hn with rfl | hn2
    · exact ⟨a, List.mem_cons_self a _, by simpa using h1⟩
    · rcases hall n hn2 with ⟨u2, hu2, hu2e⟩
      exact ⟨u2, List.mem_cons_of_mem a hu2, hu2e⟩

theorem chainB_mono (e1 e2 : List (String × String)) (hsub : ∀ x ∈ e1, x ∈ e2) :
    ∀ (l : List String) (a b : String), chainB e1 a l b = true → chainB e2 a l b = true := by
  intro l
  induction l with
  | nil =>
    intro a b h
    rw [chainB] at h ⊢
    have hm : (a, b) ∈ e1 := by simpa using h
    simpa using hsub (a, b) hm
  | cons x xs ih =>
    intro a b h
    rw [chainB, Bool.and_eq_true] at h
    rw [chainB, Bool.and_eq_true]
    have hm : (a, x) ∈ e1 := by simpa using h.1
    exact ⟨by simpa using hsub (a, x) hm, ih x b h.2⟩

theorem pruneStep_keeps (edges : List (String × String)) (S rem : List String)
    (hpred : ∀ n ∈ S, ∃ u ∈ S, (u, n) ∈ edges) (hsub : ∀ n ∈ S, n ∈ rem) :
    ∀ n ∈ S, n ∈ pruneStep edges rem := by
  intro n hn
  rcases hpred n hn with ⟨u, hu, hue⟩
  rw [pruneStep, List.mem_filter]
  refine ⟨hsub n hn, ?_⟩
  rw [List.any_eq_true]
  refine ⟨(u, n), hue, ?_⟩
  rw [Bool.and_eq_true]
  constructor
  · simp
  · simpa using hsub u hu

theorem pruneIter_keeps (edges : List (String × String)) (S : List String)
    (hpred : ∀ n ∈ S, ∃ u ∈ S, (u, n) ∈ edges) :
    ∀ (k : Nat) (rem : List String), (∀ n ∈ S, n ∈ rem) →
      ∀ n ∈ S, n ∈ pruneIter edges k rem := by
  intro k
  induction k with
  | zero => intro rem hsub n hn; exact hsub n hn
  | succ j ih =>
    intro rem hsub n hn
    rw [pruneIter]
    exact ih (pruneStep edges rem) (pruneStep_keeps edges S rem hpred hsub) n hn

theorem findCycleNodes_ne_nil (m : NodeMap) (hsc : SuccClosed m)
    (a : String) (l : List String) (hchain : chainB (tsEdges m) a l a = true) :
    ¬ findCycleNodes m = [] := by
  have hcp := chainB_in_pred (tsEdges m) l a a hchain
  have hpred : ∀ n ∈ a :: l, ∃ u ∈ a :: l, (u, n) ∈ tsEdges m := by
    intro n hn
    rcases List.mem_cons.mp hn with rfl | h
    · exact hcp.1
    · exact hcp.2 n h
  have hsub : ∀ n ∈ a :: l, n ∈ m.map Prod.fst := by
    intro n hn
    rcases hpred n hn with ⟨u, _, hue⟩
    rcases (mem_tsEdges m u n).mp hue with ⟨p, hp, h1, h2⟩
    exact hsc p hp n h2
  intro hemp
  have := pruneIter_keeps (tsEdges m) (a :: l) hpred m.length (m.map Prod.fst) hsub a
    (List.mem_cons_self a l)
  rw [findCycleNodes] at hemp
  rw [hemp] at this
  exact List.not_mem_nil a this

/-- **C7.** For every quest whose declared stage-dependency mapping contains
a cycle (a nonempty chain of declared `(stage, child)` edges from a stage
back to itself), building the stage graph during load fails with a
`QuestDefinitionError` wrapping the detected cycle. -/
theorem c7_cycle_definition_error (qc : QuestClass E) (key : String)
    (h : MappingHasCycle qc.stages) :
    ∃ msg, load_stages qc key = .error (.questDefinitionError msg) := by
  rcases h with ⟨a, l, hchain⟩
  rw [load_stages]
  cases hb : buildGraph qc key ⟨[], [], 0, 0⟩ qc.stages with
  | error e =>
    rcases buildGraph_error_shape qc key qc.stages ⟨[], [], 0, 0⟩ e hb with ⟨m, hm⟩
    subst hm
    exact ⟨m, rfl⟩
  | ok g2 =>
    have hB0 : BuildOk (TopoSorter.mk [] [] 0 0).node2info := by
      refine ⟨List.nodup_nil, ?_, ?_⟩
      · intro p hp
        exact absurd hp (List.not_mem_nil p)
      · intro p hp
        exact absurd hp (List.not_mem_nil p)
    rcases buildGraph_ok_spec qc key qc.stages ⟨[], [], 0, 0⟩ g2 hB0 hb with ⟨hB2, he⟩
    have hsub : ∀ x ∈ mappingEdges qc.stages, x ∈ tsEdges g2.node2info := by
      intro x hx
      exact (he x).mpr (Or.inr hx)
    have hchain2 : chainB (tsEdges g2.node2info) a l a = true :=
      chainB_mono (mappingEdges qc.stages) (tsEdges g2.node2info) hsub l a a hchain
    have hne := findCycleNodes_ne_nil g2.node2info hB2.2.1 a l hchain2
    have hie : (findCycleNodes g2.node2info).isEmpty = false := by
      cases hfc : findCycleNodes g2.node2info with
      | nil => exact absurd hfc hne
      | cons x xs => rfl
    have hprep : tsPrepare g2
        = .error (.cycleError (String.intercalate ", " (findCycleNodes g2.node2info))) := by
      simp only [tsPrepare, hie]
      rfl
    dsimp only
    rw [hprep]
    exact ⟨prepFailMsg qc key (String.intercalate ", " (findCycleNodes g2.node2info)), rfl⟩

/-- Witness for C7: the two-stage cyclic quest `qcCyc` fails `load_stages`
with a `QuestDefinitionError`. -/
theorem c7_cycle_definition_error_witness :
    ∃ msg, load_stages qcCyc "k" = .error (.questDefinitionError msg) :=
  c7_cycle_definition_error qcCyc "k" ⟨"A", ["B"], by decide⟩

/-! ## mapVals toolkit -/

theorem mapVals_id : ∀ m : NodeMap, mapVals (fun _ i => i) m = m := by
  intro m
  induction m with
  | nil => rfl
  | cons p rest ih =>
    rw [mapVals, List.map_cons]
    rw [mapVals] at ih
    rw [ih]

theorem mapVals_mapVals (F G : String → NodeInfo → NodeInfo) (m : NodeMap) :
    mapVals F (mapVals G m) = mapVals (fun k i => F k (G k i)) m := by
  rw [mapVals, mapVals, mapVals, List.map_map]
  rfl

theorem mapVals_congr (F G : String → NodeInfo → NodeInfo) :
    ∀ m : NodeMap, (∀ p ∈ m, F p.1 p.2 = G p.1 p.2) → mapVals F m = mapVals G m := by
  intro m
  induction m with
  | nil => intro _; rfl
  | cons p rest ih =>
    intro h
    rw [mapVals, List.map_cons, mapVals, List.map_cons]
    rw [h p (List.mem_cons_self p rest)]
    have := ih (fun q hq => h q (List.mem_cons_of_mem p hq))
    rw [mapVals, mapVals] at this
    rw [this]

theorem keys_mapVals (F : String → NodeInfo → NodeInfo) (m : NodeMap) :
    keys (mapVals F m) = keys m := by
  rw [keys, mapVals, List.map_map, keys]
  rfl

theorem lookupInfo_mapVals (F : String → NodeInfo → NodeInfo) :
    ∀ (m : NodeMap) (k : String),
      lookupInfo (mapVals F m) k = (lookupInfo m k).map (F k) := by
  intro m
  induction m with
  | nil => intro k; rfl
  | cons p rest ih =>
    intro k
    rcases p with ⟨w, i⟩
    rw [mapVals, List.map_cons]
    by_cases hw : w = k
    · subst hw
      rw [lookupInfo, if_pos rfl, lookupInfo, if_pos rfl]
      rfl
    · rw [lookupInfo, if_neg hw, lookupInfo, if_neg hw]
      rw [mapVals] at ih
      exact ih k

theorem mem_mapVals (F : String → NodeInfo → NodeInfo) (m : NodeMap)
    (p : String × NodeInfo) :
    p ∈ mapVals F m ↔ ∃ q ∈ m, p = (q.1, F q.1 q.2) := by
  rw [mapVals, List.mem_map]
  constructor
  · rintro ⟨q, hq, rfl⟩
    exact ⟨q, hq, rfl⟩
  · rintro ⟨q, hq, rfl⟩
    exact ⟨q, hq, rfl⟩

theorem tsEdges_mapVals (F : String → NodeInfo → NodeInfo)
    (hF : ∀ k i, (F k i).successors = i.successors) :
    ∀ m : NodeMap, tsEdges (mapVals F m) = tsEdges m := by
  intro m
  induction m with
  | nil => rfl
  | cons p rest ih =>
    rw [mapVals, List.map_cons, tsEdges, List.flatMap_cons, tsEdges, List.flatMap_cons]
    rw [mapVals, tsEdges] at ih
    dsimp only
    rw [hF p.1 p.2, ih]
    rfl

theorem pendingPreds_mapVals (F : String → NodeInfo → NodeInfo) (v : String) :
    ∀ m : NodeMap,
      (∀ p ∈ m, ((F p.1 p.2).npredecessors = NODE_DONE ↔ p.2.npredecessors = NODE_DONE)
        ∧ (F p.1 p.2).successors = p.2.successors) →
      pendingPreds (mapVals F m) v = pendingPreds m v := by
  intro m
  induction m with
  | nil => intro _; rfl
  | cons p rest ih =>
    intro h
    rcases h p (List.mem_cons_self p rest) with ⟨h1, h2⟩
    have hrest := ih (fun q hq => h q (List.mem_cons_of_mem p hq))
    rw [mapVals, List.map_cons, pendingPreds, List.map_cons, List.sum_cons,
      pendingPreds, List.map_cons, List.sum_cons]
    rw [mapVals, pendingPreds, pendingPreds] at hrest
    dsimp only
    rw [hrest, h2]
    by_cases hd : p.2.npredecessors = NODE_DONE
    · rw [if_pos hd, if_pos (h1.mpr hd)]
    · rw [if_neg hd, if_neg (fun hx => hd (h1.mp hx))]

theorem pendingPreds_zero_preds_done (m : NodeMap) (k : String)
    (h : pendingPreds m k = 0) :
    ∀ e ∈ m, k ∈ e.2.successors → e.2.npredecessors = NODE_DONE := by
  intro e he hk
  by_contra hnd
  rw [pendingPreds] at h
  have hterm : (if e.2.npredecessors = NODE_DONE then 0 else e.2.successors.count k) = 0 :=
    List.sum_eq_zero_iff.mp h _ (List.mem_map.mpr ⟨e, he, rfl⟩)
  rw [if_neg hnd] at hterm
  exact absurd hterm (by
    have := List.count_pos_iff.mpr hk
    omega)

theorem updateInfo_eq_mapVals (n : String) (f : NodeInfo → NodeInfo) :
    ∀ m : NodeMap, updateInfo m n f = mapVals (fun k i => if k = n then f i else i) m := by
  intro m
  induction m with
  | nil => rfl
  | cons p rest ih =>
    rcases p with ⟨w, i⟩
    rw [updateInfo, mapVals, List.map_cons]
    rw [mapVals] at ih
    by_cases hw : w = n
    · rw [if_pos hw, ih]
      dsimp only
      rw [if_pos hw]
    · rw [if_neg hw, ih]
      dsimp only
      rw [if_neg hw]

/-! ## get_ready preserves the run invariant -/

theorem foldl_markOut : ∀ (R : List String) (m : NodeMap),
    R.foldl (fun acc n => updateInfo acc n (fun i => { i with npredecessors := NODE_OUT })) m
      = mapVals (fun k i => if k ∈ R then ⟨NODE_OUT, i.successors⟩ else i) m := by
  intro R
  induction R with
  | nil =>
    intro m
    rw [List.foldl_nil]
    have hc := mapVals_congr
      (fun k i => if k ∈ ([] : List String) then (⟨NODE_OUT, i.successors⟩ : NodeInfo) else i)
      (fun _ i => i) m (fun p _ => by dsimp only; rw [if_neg (List.not_mem_nil p.1)])
    rw [hc, mapVals_id]
  | cons r R2 ih =>
    intro m
    rw [List.foldl_cons, ih, updateInfo_eq_mapVals, mapVals_mapVals]
    refine mapVals_congr _ _ m ?_
    intro p _
    dsimp only
    by_cases h1 : p.1 ∈ R2
    · rw [if_pos h1, if_pos (List.mem_cons_of_mem r h1)]
      by_cases h2 : p.1 = r
      · rw [if_pos h2]
      · rw [if_neg h2]
    · rw [if_neg h1]
      by_cases h2 : p.1 = r
      · rw [if_pos h2, if_pos (by rw [h2]; exact List.mem_cons_self r R2)]
      · rw [if_neg h2, if_neg (by rw [List.mem_cons]; push_neg; exact ⟨h2, h1⟩)]

theorem tsGetReady_node2info (g : TopoSorter) :
    (tsGetReady g).2.node2info
      = mapVals (fun k i => if k ∈ g.readyNodes then ⟨NODE_OUT, i.successors⟩ else i)
          g.node2info :=
  foldl_markOut g.readyNodes g.node2info

theorem waitInv_getReady (g : TopoSorter) (hI : WaitInv g) : WaitInv (tsGetReady g).2 := by
  obtain ⟨hnd, hsc, hcl, hrd⟩ := hI
  have hR : ∀ p ∈ g.node2info, p.1 ∈ g.readyNodes → p.2.npredecessors = 0 := by
    intro p hp hr
    rcases hrd p.1 hr with ⟨iv, hiv, hiv0⟩
    rw [lookupInfo_of_mem _ hnd p hp] at hiv
    injection hiv with hiv
    rw [hiv]
    exact hiv0
  have hmap := tsGetReady_node2info g
  have hFstat : ∀ p ∈ g.node2info,
      (((fun k i => if k ∈ g.readyNodes then (⟨NODE_OUT, i.successors⟩ : NodeInfo) else i)
          p.1 p.2).npredecessors = NODE_DONE ↔ p.2.npredecessors = NODE_DONE)
      ∧ ((fun k i => if k ∈ g.readyNodes then (⟨NODE_OUT, i.successors⟩ : NodeInfo) else i)
          p.1 p.2).successors = p.2.successors := by
    intro p hp
    dsimp only
    by_cases h1 : p.1 ∈ g.readyNodes
    · rw [if_pos h1]
      have h0 := hR p hp h1
      constructor
      · constructor
        · intro hx
          exact absurd hx (by dsimp only; rw [NODE_OUT, NODE_DONE]; omega)
        · intro hx
          rw [h0] at hx
          exact absurd hx (by rw [NODE_DONE]; omega)
      · rfl
    · rw [if_neg h1]
      exact ⟨Iff.rfl, rfl⟩
  have hpp : ∀ v, pendingPreds (tsGetReady g).2.node2info v = pendingPreds g.node2info v := by
    intro v
    rw [hmap]
    exact pendingPreds_mapVals _ v g.node2info hFstat
  refine ⟨?_, ?_, ?_, ?_⟩
  · rw [hmap, keys_mapVals]
    exact hnd
  · intro p hp s hs
    rw [hmap] at hp
    rcases (mem_mapVals _ _ p).mp hp with ⟨q, hq, rfl⟩
    rw [hmap, keys_mapVals]
    refine hsc q hq s ?_
    rcases hFstat q hq with ⟨_, h2⟩
    rw [h2] at hs
    exact hs
  · intro p hp
    rw [hmap] at hp
    rcases (mem_mapVals _ _ p).mp hp with ⟨q, hq, rfl⟩
    have hOD_new : (∀ e0 ∈ g.node2info, q.1 ∈ e0.2.successors →
        e0.2.npredecessors = NODE_DONE) →
        ∀ e ∈ (tsGetReady g).2.node2info, q.1 ∈ e.2.successors →
          e.2.npredecessors = NODE_DONE := by
      intro hOD e he hmem
      rw [hmap] at he
      rcases (mem_mapVals _ _ e).mp he with ⟨t, ht, rfl⟩
      rcases hFstat t ht with ⟨_, hsu⟩
      dsimp only at hmem ⊢
      rw [hsu] at hmem
      have hdone := hOD t ht hmem
      by_cases h1 : t.1 ∈ g.readyNodes
      · have h0 := hR t ht h1
        rw [h0] at hdone
        exact absurd hdone (by rw [NODE_DONE]; omega)
      · rw [if_neg h1]
        exact hdone
    dsimp only
    by_cases h1 : q.1 ∈ g.readyNodes
    · rw [if_pos h1]
      refine ⟨Or.inr (Or.inl rfl), ?_, ?_⟩
      · intro hge
        exact absurd hge (by dsimp only; rw [NODE_OUT]; omega)
      · intro _
        have h0 := hR q hq h1
        have hw := (hcl q hq).2.1 (by rw [h0])
        rw [h0] at hw
        have hP0 : pendingPreds g.node2info q.1 = 0 := by omega
        exact hOD_new (pendingPreds_zero_preds_done g.node2info q.1 hP0)
    · rw [if_neg h1]
      refine ⟨(hcl q hq).1, ?_, ?_⟩
      · intro hge
        rw [hpp q.1]
        exact (hcl q hq).2.1 hge
      · intro hneg
        exact hOD_new ((hcl q hq).2.2 hneg)
  · intro n hn
    exact absurd hn (List.not_mem_nil n)

/-! ## done preserves the run invariant: the decrement loop -/

theorem decShift_succ (i : NodeInfo) (k : String) (kf : String → Nat) :
    (decShift kf k i).successors = i.successors := rfl

theorem decShift_zero (m : NodeMap) : mapVals (decShift (fun _ => 0)) m = m := by
  have hc := mapVals_congr (decShift (fun _ => 0)) (fun _ i => i) m (by
    intro p _
    rw [decShift]
    rcases hp2 : p.2 with ⟨a, b⟩
    dsimp only
    rw [show ((0 : Nat) : Int) = 0 from rfl, sub_zero])
  rw [hc, mapVals_id]

theorem count_append_single_str (l : List String) (x v : String) :
    (l ++ [x]).count v = l.count v + (if x = v then 1 else 0) :=
  count_append_single l x v

theorem lookup_decShift_stable (m : NodeMap) (pre : List String) (x v : String)
    (hvx : v ≠ x) (iv : NodeInfo)
    (h1 : lookupInfo (mapVals (decShift (fun w => pre.count w)) m) v = some iv) :
    lookupInfo (mapVals (decShift (fun w => (pre ++ [x]).count w)) m) v = some iv := by
  rw [lookupInfo_mapVals] at h1 ⊢
  cases hlmv : lookupInfo m v with
  | none => rw [hlmv] at h1; exact absurd h1 (by simp)
  | some j =>
    have hceq : (((pre ++ [x]).count v : Nat) : Int) = ((pre.count v : Nat) : Int) := by
      rw [count_append_single_str, if_neg (fun h : x = v => hvx h.symm)]
      push_cast
      ring
    rw [hlmv] at h1
    dsimp only [Option.map, decShift] at h1
    dsimp only [Option.map, decShift]
    rw [hceq]
    exact h1

theorem foldl_decSucc_spec (m : NodeMap) (S : List String)
    (hS : ∀ v, 0 < S.count v → ∃ iv, lookupInfo m v = some iv ∧
        iv.npredecessors = (pendingPreds m v : Int) + S.count v) :
    ∀ (rest pre : List String), S = pre ++ rest →
    ∀ ready : List String,
      (∀ v ∈ ready, ∃ iv,
          lookupInfo (mapVals (decShift (fun w => pre.count w)) m) v = some iv ∧
          iv.npredecessors = 0 ∧ rest.count v = 0) →
      ∃ readyF,
        rest.foldl decSucc (mapVals (decShift (fun w => pre.count w)) m, ready)
          = (mapVals (decShift (fun w => S.count w)) m, readyF) ∧
        ∀ v ∈ readyF, ∃ iv,
          lookupInfo (mapVals (decShift (fun w => S.count w)) m) v = some iv ∧
          iv.npredecessors = 0 := by
  intro rest
  induction rest with
  | nil =>
    intro pre hpre ready hready
    rw [List.foldl_nil]
    rw [List.append_nil] at hpre
    subst hpre
    refine ⟨ready, rfl, ?_⟩
    intro v hv
    rcases hready v hv with ⟨iv, h1, h2, _⟩
    exact ⟨iv, h1, h2⟩
  | cons x rest2 ih =>
    intro pre hpre ready hready
    rw [List.foldl_cons]
    -- the updated map after decrementing x once
    have hm2 : updateInfo (mapVals (decShift (fun w => pre.count w)) m) x
        (fun i => { i with npredecessors := i.npredecessors - 1 })
        = mapVals (decShift (fun w => (pre ++ [x]).count w)) m := by
      rw [updateInfo_eq_mapVals, mapVals_mapVals]
      refine mapVals_congr _ _ m ?_
      intro p _
      dsimp only [decShift]
      by_cases hk : p.1 = x
      · rw [if_pos hk, count_append_single_str, if_pos hk.symm]
        push_cast
        congr 1
        ring
      · rw [if_neg hk, count_append_single_str,
          if_neg (fun h : x = p.1 => hk h.symm)]
        push_cast
        rfl
    -- x occurs in S
    have hxS : 0 < S.count x := by
      rw [hpre, List.count_append]
      have : 0 < (x :: rest2).count x := by
        rw [List.count_cons_self]
        omega
      omega
    rcases hS x hxS with ⟨ivm, hlm, hvm⟩
    -- count bookkeeping
    have hcnt : (S.count x : Int) = (pre.count x : Int) + 1 + rest2.count x := by
      rw [hpre, List.count_append, List.count_cons_self]
      push_cast
      ring
    -- the looked-up value after the decrement
    have hlx : lookupInfo (mapVals (decShift (fun w => (pre ++ [x]).count w)) m) x
        = some ⟨ivm.npredecessors - ((pre ++ [x]).count x : Int), ivm.successors⟩ := by
      rw [lookupInfo_mapVals, hlm]
      rfl
    have hval : ivm.npredecessors - ((pre ++ [x]).count x : Int)
        = (pendingPreds m x : Int) + rest2.count x := by
      rw [hvm, count_append_single_str, if_pos rfl]
      push_cast
      omega
    -- unfold the step
    rw [show decSucc (mapVals (decShift (fun w => pre.count w)) m, ready) x
        = (let m2 := mapVals (decShift (fun w => (pre ++ [x]).count w)) m;
           match lookupInfo m2 x with
           | some i => if i.npredecessors == 0 then (m2, ready ++ [x]) else (m2, ready)
           | none => (m2, ready)) from by rw [decSucc]; rw [hm2]]
    dsimp only
    rw [hlx]
    dsimp only
    by_cases hz : ivm.npredecessors - ((pre ++ [x]).count x : Int) = 0
    · have hbeq : ((⟨ivm.npredecessors - ((pre ++ [x]).count x : Int), ivm.successors⟩
          : NodeInfo).npredecessors == 0) = true := by
        dsimp only
        rw [hz]
        rfl
      rw [if_pos hbeq]
      have hz2 : pendingPreds m x = 0 ∧ rest2.count x = 0 := by
        rw [hval] at hz
        omega
      refine ih (pre ++ [x]) (by rw [hpre, List.append_assoc]; rfl) (ready ++ [x]) ?_
      intro v hv
      rcases List.mem_append.mp hv with hv | hv
      · rcases hready v hv with ⟨iv, h1, h2, h3⟩
        have hvx : v ≠ x := by
          intro he
          rw [he, List.count_cons_self] at h3
          omega
        refine ⟨iv, lookup_decShift_stable m pre x v hvx iv h1, h2, ?_⟩
        rw [List.count_cons_of_ne (fun h : v = x => hvx h)] at h3
        exact h3
      · rw [List.mem_singleton] at hv
        subst hv
        refine ⟨_, hlx, hz, hz2.2⟩
    · have hbeq : ((⟨ivm.npredecessors - ((pre ++ [x]).count x : Int), ivm.successors⟩
          : NodeInfo).npredecessors == 0) = false := by
        dsimp only
        rw [beq_eq_false_iff_ne]
        exact hz
      rw [if_neg (by rw [hbeq]; exact Bool.false_ne_true)]
      refine ih (pre ++ [x]) (by rw [hpre, List.append_assoc]; rfl) ready ?_
      intro v hv
      rcases hready v hv with ⟨iv, h1, h2, h3⟩
      have hvx : v ≠ x := by
        intro he
        rw [he, List.count_cons_self] at h3
        omega
      refine ⟨iv, lookup_decShift_stable m pre x v hvx iv h1, h2, ?_⟩
      rw [List.count_cons_of_ne (fun h : v = x => hvx h)] at h3
      exact h3

theorem waitInv_done (g : TopoSorter) (node : String) (info : NodeInfo)
    (hI : WaitInv g) (hlook : lookupInfo g.node2info node = some info)
    (hout : info.npredecessors = NODE_OUT) : WaitInv (tsDone g node) := by
  obtain ⟨hnd, hsc, hcl, hrd⟩ := hI
  have hnodeMem : (node, info) ∈ g.node2info := lookupInfo_mem _ node info hlook
  have hOD_node := (hcl (node, info) hnodeMem).2.2 (Or.inl hout)
  have hcnt0 : ∀ q ∈ g.node2info,
      (q.2.npredecessors = NODE_OUT ∨ q.2.npredecessors = NODE_DONE) →
      info.successors.count q.1 = 0 := by
    intro q hq hq2
    by_contra hpos
    have hmem : q.1 ∈ info.successors :=
      List.count_pos_iff.mp (Nat.pos_of_ne_zero hpos)
    have hdd := (hcl q hq).2.2 hq2 (node, info) hnodeMem hmem
    dsimp only at hdd
    rw [hout] at hdd
    exact absurd hdd (by rw [NODE_OUT, NODE_DONE]; omega)
  have hnodeS : info.successors.count node = 0 := by
    by_contra hpos
    have hmem : node ∈ info.successors :=
      List.count_pos_iff.mp (Nat.pos_of_ne_zero hpos)
    have hdd := hOD_node (node, info) hnodeMem hmem
    dsimp only at hdd
    rw [hout] at hdd
    exact absurd hdd (by rw [NODE_OUT, NODE_DONE]; omega)
  have hshift : ∀ v, (pendingPreds g.node2info v : Int)
      = pendingPreds (updateInfo g.node2info node
          (fun i => { i with npredecessors := NODE_DONE })) v
        + info.successors.count v := by
    intro v
    have hmain := pendingPreds_update_entry node v
      (fun i => { i with npredecessors := NODE_DONE }) g.node2info hnd info hlook
    rw [if_neg (by rw [hout, NODE_OUT, NODE_DONE]; omega), if_pos rfl] at hmain
    omega
  have hlookD : ∀ v, v ≠ node →
      lookupInfo (updateInfo g.node2info node
        (fun i => { i with npredecessors := NODE_DONE })) v
        = lookupInfo g.node2info v := by
    intro v hv
    rw [lookupInfo_updateInfo, if_neg hv]
  have hSfold : ∀ v, 0 < info.successors.count v →
      ∃ iv, lookupInfo (updateInfo g.node2info node
          (fun i => { i with npredecessors := NODE_DONE })) v = some iv ∧
        iv.npredecessors = (pendingPreds (updateInfo g.node2info node
            (fun i => { i with npredecessors := NODE_DONE })) v : Int)
          + info.successors.count v := by
    intro v hv
    have hvmem : v ∈ info.successors := List.count_pos_iff.mp hv
    have hvne : v ≠ node := by
      intro he
      rw [he] at hv
      omega
    have hvkeys : v ∈ keys g.node2info := hsc (node, info) hnodeMem v hvmem
    rcases Option.isSome_iff_exists.mp ((isSome_lookupInfo_iff v g.node2info).mpr hvkeys)
      with ⟨iv0, hiv0⟩
    have hq : (v, iv0) ∈ g.node2info := lookupInfo_mem _ v iv0 hiv0
    have hwait : 0 ≤ iv0.npredecessors := by
      rcases (hcl (v, iv0) hq).1 with h | h | h
      · exact h
      · exfalso
        have hdd := (hcl (v, iv0) hq).2.2 (Or.inl h) (node, info) hnodeMem hvmem
        dsimp only at hdd
        rw [hout] at hdd
        exact absurd hdd (by rw [NODE_OUT, NODE_DONE]; omega)
      · exfalso
        have hdd := (hcl (v, iv0) hq).2.2 (Or.inr h) (node, info) hnodeMem hvmem
        dsimp only at hdd
        rw [hout] at hdd
        exact absurd hdd (by rw [NODE_OUT, NODE_DONE]; omega)
    have hval := (hcl (v, iv0) hq).2.1 hwait
    dsimp only at hval
    refine ⟨iv0, by rw [hlookD v hvne]; exact hiv0, ?_⟩
    rw [hval, hshift v]
  have hzero : mapVals (decShift (fun w => List.count w ([] : List String)))
      (updateInfo g.node2info node (fun i => { i with npredecessors := NODE_DONE }))
      = updateInfo g.node2info node (fun i => { i with npredecessors := NODE_DONE }) := by
    have hc := mapVals_congr (decShift (fun w => List.count w ([] : List String)))
      (decShift (fun _ => 0)) (updateInfo g.node2info node
        (fun i => { i with npredecessors := NODE_DONE })) (by
        intro p _
        dsimp only [decShift]
        rw [List.count_nil])
    rw [hc, decShift_zero]
  have hready0 : ∀ v ∈ g.readyNodes, ∃ iv,
      lookupInfo (mapVals (decShift (fun w => List.count w ([] : List String)))
        (updateInfo g.node2info node
          (fun i => { i with npredecessors := NODE_DONE }))) v = some iv ∧
      iv.npredecessors = 0 ∧ info.successors.count v = 0 := by
    intro v hv
    rcases hrd v hv with ⟨iv, hiv, hiv0⟩
    have hvne : v ≠ node := by
      intro he
      rw [he, hlook] at hiv
      injection hiv with hiv
      rw [← hiv, hout] at hiv0
      exact absurd hiv0 (by rw [NODE_OUT]; omega)
    have hc0 : info.successors.count v = 0 := by
      by_contra hpos
      rcases hSfold v (Nat.pos_of_ne_zero hpos) with ⟨iv2, hiv2, hval2⟩
      rw [hlookD v hvne, hiv] at hiv2
      injection hiv2 with hiv2
      rw [← hiv2, hiv0] at hval2
      have hc1 : (0:Int) < (info.successors.count v : Int) := by
        exact_mod_cast Nat.pos_of_ne_zero hpos
      have hc2 : (0:Int) ≤ (pendingPreds (updateInfo g.node2info node
          (fun i => { i with npredecessors := NODE_DONE })) v : Int) :=
        Int.natCast_nonneg _
      omega
    refine ⟨iv, ?_, hiv0, hc0⟩
    rw [hzero, hlookD v hvne]
    exact hiv
  rcases foldl_decSucc_spec (updateInfo g.node2info node
      (fun i => { i with npredecessors := NODE_DONE })) info.successors hSfold
      info.successors [] rfl g.readyNodes hready0 with ⟨readyF, hfold, hreadyF⟩
  rw [hzero] at hfold
  have htd : tsDone g node = ⟨mapVals (decShift (fun w => List.count w info.successors))
      (updateInfo g.node2info node (fun i => { i with npredecessors := NODE_DONE })),
      readyF, g.npassedout, g.nfinished + 1⟩ := by
    rw [tsDone, hlook]
    dsimp only
    rw [if_pos hout]
    rw [hfold]
  rw [htd]
  have hndD : (keys (updateInfo g.node2info node
      (fun i => { i with npredecessors := NODE_DONE }))).Nodup := by
    rw [keys_updateInfo]
    exact hnd
  -- origin of an entry of the marked map
  have horigin : ∀ q ∈ updateInfo g.node2info node
      (fun i => { i with npredecessors := NODE_DONE }),
      (q.1 = node ∧ q.2 = (⟨NODE_DONE, info.successors⟩ : NodeInfo)) ∨
      (q.1 ≠ node ∧ (q.1, q.2) ∈ g.node2info) := by
    intro q hq
    have hlq := lookupInfo_of_mem _ hndD q hq
    by_cases hqn : q.1 = node
    · rw [hqn, lookupInfo_updateInfo, if_pos rfl, hlook] at hlq
      dsimp only [Option.map] at hlq
      injection hlq with hlq
      exact Or.inl ⟨hqn, hlq.symm⟩
    · rw [lookupInfo_updateInfo, if_neg hqn] at hlq
      exact Or.inr ⟨hqn, lookupInfo_mem _ q.1 q.2 hlq⟩
  -- done statuses are preserved by the final decrement layer
  have hstat : ∀ p ∈ updateInfo g.node2info node
      (fun i => { i with npredecessors := NODE_DONE }),
      ((decShift (fun w => List.count w info.successors) p.1 p.2).npredecessors = NODE_DONE
        ↔ p.2.npredecessors = NODE_DONE)
      ∧ (decShift (fun w => List.count w info.successors) p.1 p.2).successors
        = p.2.successors := by
    intro p hp
    refine ⟨?_, rfl⟩
    rcases horigin p hp with ⟨h1, h2⟩ | ⟨h1, h2⟩
    · rw [h2]
      dsimp only [decShift]
      rw [h1, hnodeS]
      constructor
      · intro _
        rfl
      · intro _
        push_cast
        rw [sub_zero]
    · rcases (hcl (p.1, p.2) h2).1 with h0 | h0 | h0
      · dsimp only at h0
        have hval := (hcl (p.1, p.2) h2).2.1 h0
        dsimp only at hval
        dsimp only [decShift]
        have hnn : (0:Int) ≤ (pendingPreds (updateInfo g.node2info node
            (fun i => { i with npredecessors := NODE_DONE })) p.1 : Int) :=
          Int.natCast_nonneg _
        have hcc : (0:Int) ≤ (info.successors.count p.1 : Int) := Int.natCast_nonneg _
        rw [hval, hshift p.1]
        constructor
        · intro hx
          exfalso
          rw [NODE_DONE] at hx
          omega
        · intro hx
          exfalso
          rw [NODE_DONE] at hx
          omega
      · dsimp only at h0
        have hc := hcnt0 (p.1, p.2) h2 (Or.inl h0)
        dsimp only at hc
        dsimp only [decShift]
        rw [hc, h0]
        push_cast
        rw [sub_zero]
      · dsimp only at h0
        have hc := hcnt0 (p.1, p.2) h2 (Or.inr h0)
        dsimp only at hc
        dsimp only [decShift]
        rw [hc, h0]
        push_cast
        rw [sub_zero]
  have hPP : ∀ v, pendingPreds (mapVals
      (decShift (fun w => List.count w info.successors))
      (updateInfo g.node2info node (fun i => { i with npredecessors := NODE_DONE }))) v
      = pendingPreds (updateInfo g.node2info node
          (fun i => { i with npredecessors := NODE_DONE })) v := by
    intro v
    exact pendingPreds_mapVals _ v _ hstat
  -- origin of an entry of the final map
  have horiginF : ∀ p ∈ mapVals (decShift (fun w => List.count w info.successors))
      (updateInfo g.node2info node (fun i => { i with npredecessors := NODE_DONE })),
      ∃ q ∈ updateInfo g.node2info node (fun i => { i with npredecessors := NODE_DONE }),
        p = (q.1, decShift (fun w => List.count w info.successors) q.1 q.2) := by
    intro p hp
    exact (mem_mapVals _ _ p).mp hp
  -- lifting done-ness of all predecessor entries
  have hODlift : ∀ x : String,
      (∀ e0 ∈ g.node2info, x ∈ e0.2.successors → e0.2.npredecessors = NODE_DONE) →
      ∀ e ∈ mapVals (decShift (fun w => List.count w info.successors))
        (updateInfo g.node2info node (fun i => { i with npredecessors := NODE_DONE })),
        x ∈ e.2.successors → e.2.npredecessors = NODE_DONE := by
    intro x hOD0 e he hmem
    rcases horiginF e he with ⟨q, hq, rfl⟩
    dsimp only at hmem ⊢
    rw [decShift_succ] at hmem
    rcases horigin q hq with ⟨h1, h2⟩ | ⟨h1, h2⟩
    · -- q is the freshly marked node entry; x among its successors contradicts hout
      exfalso
      rw [h2] at hmem
      dsimp only at hmem
      have hdd := hOD0 (node, info) hnodeMem hmem
      dsimp only at hdd
      rw [hout] at hdd
      rw [NODE_OUT, NODE_DONE] at hdd
      omega
    · have hdd := hOD0 (q.1, q.2) h2 hmem
      have hc : info.successors.count q.1 = 0 := hcnt0 (q.1, q.2) h2 (Or.inr hdd)
      dsimp only [decShift]
      rw [hc, hdd]
      push_cast
      rw [sub_zero]
  -- the invariant, clause by clause
  refine ⟨?_, ?_, ?_, ?_⟩
  · dsimp only
    rw [keys_mapVals, keys_updateInfo]
    exact hnd
  · intro p hp s hs
    dsimp only at hp
    rcases horiginF p hp with ⟨q, hq, rfl⟩
    dsimp only at hs
    rw [decShift_succ] at hs
    dsimp only
    rw [keys_mapVals, keys_updateInfo]
    rcases horigin q hq with ⟨h1, h2⟩ | ⟨h1, h2⟩
    · rw [h2] at hs
      dsimp only at hs
      exact hsc (node, info) hnodeMem s hs
    · exact hsc (q.1, q.2) h2 s hs
  · intro p hp
    dsimp only at hp
    rcases horiginF p hp with ⟨q, hq, rfl⟩
    rcases horigin q hq with ⟨h1, h2⟩ | ⟨h1, h2⟩
    · -- the marked node entry stays done
      have hvd : (decShift (fun w => List.count w info.successors) q.1 q.2).npredecessors
          = NODE_DONE := by
        rw [h2]
        dsimp only [decShift]
        rw [h1, hnodeS]
        push_cast
        rw [sub_zero]
      refine ⟨Or.inr (Or.inr hvd), ?_, ?_⟩
      · intro hge
        dsimp only at hge
        rw [hvd] at hge
        exact absurd hge (by rw [NODE_DONE]; omega)
      · intro _
        dsimp only
        rw [h1]
        exact hODlift node hOD_node
    · rcases (hcl (q.1, q.2) h2).1 with h0 | h0 | h0
      · -- originally waiting
        dsimp only at h0
        have hval := (hcl (q.1, q.2) h2).2.1 h0
        dsimp only at hval
        have hveq : (decShift (fun w => List.count w info.successors) q.1 q.2).npredecessors
            = (pendingPreds (updateInfo g.node2info node
                (fun i => { i with npredecessors := NODE_DONE })) q.1 : Int) := by
          dsimp only [decShift]
          rw [hval, hshift q.1]
          ring
        refine ⟨Or.inl (by dsimp only; rw [hveq]; exact Int.natCast_nonneg _), ?_, ?_⟩
        · intro _
          dsimp only
          rw [hveq, hPP q.1]
        · intro hx
          dsimp only at hx
          rw [hveq] at hx
          exfalso
          have hnn : (0:Int) ≤ (pendingPreds (updateInfo g.node2info node
              (fun i => { i with npredecessors := NODE_DONE })) q.1 : Int) :=
            Int.natCast_nonneg _
          rcases hx with hx | hx
          · rw [NODE_OUT] at hx
            omega
          · rw [NODE_DONE] at hx
            omega
      · -- originally passed out
        dsimp only at h0
        have hc := hcnt0 (q.1, q.2) h2 (Or.inl h0)
        dsimp only at hc
        have hveq : (decShift (fun w => List.count w info.successors) q.1 q.2).npredecessors
            = NODE_OUT := by
          dsimp only [decShift]
          rw [hc, h0]
          push_cast
          rw [sub_zero]
        refine ⟨Or.inr (Or.inl hveq), ?_, ?_⟩
        · intro hge
          dsimp only at hge
          rw [hveq] at hge
          exact absurd hge (by rw [NODE_OUT]; omega)
        · intro _
          dsimp only
          exact hODlift q.1 ((hcl (q.1, q.2) h2).2.2 (Or.inl h0))
      · -- originally done
        dsimp only at h0
        have hc := hcnt0 (q.1, q.2) h2 (Or.inr h0)
        dsimp only at hc
        have hveq : (decShift (fun w => List.count w info.successors) q.1 q.2).npredecessors
            = NODE_DONE := by
          dsimp only [decShift]
          rw [hc, h0]
          push_cast
          rw [sub_zero]
        refine ⟨Or.inr (Or.inr hveq), ?_, ?_⟩
        · intro hge
          dsimp only at hge
          rw [hveq] at hge
          exact absurd hge (by rw [NODE_DONE]; omega)
        · intro _
          dsimp only
          exact hODlift q.1 ((hcl (q.1, q.2) h2).2.2 (Or.inr h0))
  · intro n hn
    dsimp only at hn
    rcases hreadyF n hn with ⟨iv, h1, h2⟩
    exact ⟨iv, h1, h2⟩
/-! ## The run invariant holds initially and along every run -/

theorem tsPrepare_ok_shape (g g0 : TopoSorter) (h : tsPrepare g = .ok g0) :
    g0 = { g with readyNodes :=
      (g.node2info.filter (fun p => p.2.npredecessors == 0)).map Prod.fst } := by
  simp only [tsPrepare] at h
  by_cases hc : (findCycleNodes g.node2info).isEmpty = true
  · rw [if_pos hc] at h
    injection h with h
    exact h.symm
  · rw [if_neg hc] at h
    exact absurd h (by simp)

theorem load_stages_ok_spec (qc : QuestClass E) (key : String) (g0 : TopoSorter)
    (h : load_stages qc key = .ok g0) :
    WaitInv g0 ∧
    (∀ uv : String × String,
      uv ∈ tsEdges g0.node2info ↔ uv ∈ mappingEdges qc.stages) := by
  rw [load_stages] at h
  cases hb : buildGraph qc key ⟨[], [], 0, 0⟩ qc.stages with
  | error e =>
    rw [hb] at h
    exact absurd h (by simp)
  | ok g2 =>
    rw [hb] at h
    have hB0 : BuildOk (TopoSorter.mk [] [] 0 0).node2info := ⟨List.nodup_nil,
      fun p hp => absurd hp (List.not_mem_nil p),
      fun p hp => absurd hp (List.not_mem_nil p)⟩
    rcases buildGraph_ok_spec qc key qc.stages ⟨[], [], 0, 0⟩ g2 hB0 hb with ⟨hB2, he⟩
    dsimp only at h
    cases hp : tsPrepare g2 with
    | error e2 =>
      rw [hp] at h
      cases e2 <;> exact absurd h (by simp)
    | ok g3 =>
      rw [hp] at h
      injection h with h
      subst h
      have hshape := tsPrepare_ok_shape g2 g3 hp
      obtain ⟨hnd2, hsc2, hcnt2⟩ := hB2
      constructor
      · rw [hshape]
        refine ⟨hnd2, hsc2, ?_, ?_⟩
        · intro p hp2
          dsimp only at hp2
          have hc := hcnt2 p hp2
          refine ⟨Or.inl hc.1, fun _ => hc.2, ?_⟩
          intro hx
          exfalso
          have h1 := hc.1
          rcases hx with hx | hx
          · rw [hx, NODE_OUT] at h1
            omega
          · rw [hx, NODE_DONE] at h1
            omega
        · intro n hn
          dsimp only at hn
          rw [List.mem_map] at hn
          rcases hn with ⟨p, hpf, rfl⟩
          rw [List.mem_filter] at hpf
          have h0 : p.2.npredecessors = 0 := by
            have := hpf.2
            rwa [beq_iff_eq] at this
          exact ⟨p.2, lookupInfo_of_mem _ hnd2 p hpf.1, h0⟩
      · intro uv
        rw [hshape]
        dsimp only
        rw [he uv]
        constructor
        · intro hx
          rcases hx with hx | hx
          · exact absurd hx (List.not_mem_nil uv)
          · exact hx
        · exact Or.inr

theorem waitInv_step (g g2 : TopoSorter) (h : SorterStep g g2) (hI : WaitInv g) :
    WaitInv g2 := by
  cases h with
  | ready => exact waitInv_getReady g hI
  | markDone n i h1 h2 => exact waitInv_done g n i hI h1 h2

theorem decSucc_fst (st : NodeMap × List String) (x : String) :
    (decSucc st x).1 = updateInfo st.1 x
      (fun i => { i with npredecessors := i.npredecessors - 1 }) := by
  rw [decSucc]
  cases hl : lookupInfo (updateInfo st.1 x
      (fun i => { i with npredecessors := i.npredecessors - 1 })) x with
  | none => rfl
  | some i =>
    dsimp only
    split <;> rfl

theorem tsEdges_foldl_decSucc : ∀ (S : List String) (st : NodeMap × List String),
    tsEdges (S.foldl decSucc st).1 = tsEdges st.1 := by
  intro S
  induction S with
  | nil => intro st; rfl
  | cons x xs ih =>
    intro st
    rw [List.foldl_cons, ih (decSucc st x), decSucc_fst]
    exact tsEdges_updateInfo_succs x
      (fun i => { i with npredecessors := i.npredecessors - 1 }) (fun i => rfl) st.1

theorem tsEdges_tsDone (g : TopoSorter) (n : String) :
    tsEdges (tsDone g n).node2info = tsEdges g.node2info := by
  rw [tsDone]
  cases hl : lookupInfo g.node2info n with
  | none => rfl
  | some info =>
    dsimp only
    by_cases ho : info.npredecessors = NODE_OUT
    · rw [if_pos ho]
      dsimp only
      rw [tsEdges_foldl_decSucc]
      exact tsEdges_updateInfo_succs n
        (fun i => { i with npredecessors := NODE_DONE }) (fun i => rfl) g.node2info
    · rw [if_neg ho]

theorem tsEdges_tsGetReady (g : TopoSorter) :
    tsEdges (tsGetReady g).2.node2info = tsEdges g.node2info := by
  rw [tsGetReady_node2info]
  refine tsEdges_mapVals _ ?_ g.node2info
  intro k i
  by_cases h : k ∈ g.readyNodes
  · rw [if_pos h]
  · rw [if_neg h]

theorem waitInv_reach (g0 g : TopoSorter) (h : SorterReach g0 g) (hI : WaitInv g0) :
    WaitInv g ∧ tsEdges g.node2info = tsEdges g0.node2info := by
  induction h with
  | refl => exact ⟨hI, rfl⟩
  | tail hr hs ih =>
    rcases ih with ⟨ih1, ih2⟩
    refine ⟨waitInv_step _ _ hs ih1, ?_⟩
    cases hs with
    | ready => rw [tsEdges_tsGetReady, ih2]
    | markDone n i h1 h2 => rw [tsEdges_tsDone, ih2]

/-- **C1 (amended).** The `children` lists are dependents, not dependencies:
the code builds the edge `stage → child`, so a declared child runs after its
declaring stage.  For every quest whose stage graph loads successfully, in
every state of the graph reachable by the operations an execution pass
performs (`get_ready` calls, and `done` on passed-out nodes), a stage is
never reported ready by `get_ready` before every stage in its transitive set
of declaring ancestors — every `u` connected to it by a chain of declared
`(stage, child)` edges — has been marked done; in particular a fresh pass
processes a stage before any of its declared children. -/
theorem c1_ready_only_after_ancestors_done (qc : QuestClass E) (key : String)
    (g0 : TopoSorter) (hload : load_stages qc key = .ok g0)
    (g : TopoSorter) (hreach : SorterReach g0 g)
    (n : String) (hn : n ∈ (tsGetReady g).1)
    (u : String) (hpath : Relation.TransGen (DeclEdge qc) u n) :
    isDoneNode g u := by
  rcases load_stages_ok_spec qc key g0 hload with ⟨hI0, hedges0⟩
  rcases waitInv_reach g0 g hreach hI0 with ⟨hI, hedges⟩
  obtain ⟨hnd, hsc, hcl, hrd⟩ := hI
  have hE : ∀ a b : String, DeclEdge qc a b → (a, b) ∈ tsEdges g.node2info := by
    intro a b hab
    rw [hedges]
    exact (hedges0 (a, b)).mpr hab
  have hready_pd : ∀ x ∈ g.readyNodes, AllPredsDone g x := by
    intro x hx
    rcases hrd x hx with ⟨iv, hiv, hiv0⟩
    have hmem := lookupInfo_mem _ x iv hiv
    have hw := (hcl (x, iv) hmem).2.1 (by rw [hiv0])
    dsimp only at hw
    rw [hiv0] at hw
    have hP0 : pendingPreds g.node2info x = 0 := by omega
    exact pendingPreds_zero_preds_done g.node2info x hP0
  have hdone_pd : ∀ x, isDoneNode g x → AllPredsDone g x := by
    intro x hx
    rcases hx with ⟨iv, hiv, hivd⟩
    exact (hcl (x, iv) (lookupInfo_mem _ x iv hiv)).2.2 (Or.inr hivd)
  have hedge_done : ∀ a b : String, AllPredsDone g b → DeclEdge qc a b →
      isDoneNode g a := by
    intro a b hb hab
    rcases (mem_tsEdges g.node2info a b).mp (hE a b hab) with ⟨p, hp, h1, h2⟩
    have hd := hb p hp h2
    refine ⟨p.2, ?_, hd⟩
    rw [← h1]
    exact lookupInfo_of_mem _ hnd p hp
  have hAPD : AllPredsDone g n := hready_pd n hn
  clear hn
  revert hAPD
  induction hpath with
  | single h => exact fun hAPD => hedge_done _ _ hAPD h
  | tail hp he ih =>
    intro hAPD
    have hdb := hedge_done _ _ hAPD he
    exact ih (hdone_pd _ hdb)

/-- C1 (counterexample to the claim as stated): the claim reads the
`children` lists as dependency sets, so in `qcBA` (where `B.children = ["A"]`
and `A.children = []`) stage `B` "depends on" `A` and a fresh pass should
process `A` first.  The code instead builds the edge `stage -> child`
(`graph.add(child_name, stage_name)`), so the freshly prepared sorter
reports `B` — not `A` — as its first ready batch while `A` is not done:
`children` are dependents, not dependencies. -/
theorem c1_children_as_dependencies_refuted :
    ∃ g0, load_stages qcBA "k" = .ok g0 ∧
      (tsGetReady g0).1 = ["B"] ∧ ¬ isDoneNode g0 "A" := by
  refine ⟨⟨[("A", ⟨1, []⟩), ("B", ⟨0, ["A"]⟩)], ["B"], 0, 0⟩, rfl, by decide, ?_⟩
  rintro ⟨i, hi, hd⟩
  dsimp only at hi
  have h2 : lookupInfo [("A", (⟨1, []⟩ : NodeInfo)), ("B", ⟨0, ["A"]⟩)] "A"
      = some ⟨1, []⟩ := by decide
  rw [h2] at hi
  cases hi
  exact absurd hd (by decide)

/-- Witness for the amended C1: in `qcAB` stage `A` declares child `B`; from
the loaded sorter, one `get_ready` pass followed by `done("A")` reaches a
state whose ready batch contains `B`, and there the transitive declaring
ancestor `A` is indeed marked done. -/
theorem c1_ready_only_after_ancestors_done_witness :
    isDoneNode (tsDone (tsGetReady ⟨[("B", ⟨1, []⟩), ("A", ⟨0, ["B"]⟩)], ["A"], 0, 0⟩).2 "A") "A" := by
  refine c1_ready_only_after_ancestors_done qcAB "k"
    ⟨[("B", ⟨1, []⟩), ("A", ⟨0, ["B"]⟩)], ["A"], 0, 0⟩ rfl
    _ ?_ "B" (by decide) "A" (Relation.TransGen.single (by unfold DeclEdge; decide))
  exact Relation.ReflTransGen.tail
    (Relation.ReflTransGen.tail Relation.ReflTransGen.refl
      (SorterStep.ready _))
    (SorterStep.markDone _ "A" ⟨-1, ["B"]⟩ (by decide) (by decide))

end GameCore
